import Mathlib

/-!
# Verification of the tgbot dispatch core

A shallow embedding, in Lean 4, of the parts of the `tgbot` repository that
the specification's claims are about:

* `src/queue.c`   — per-sender bounded rings, hash-chained, round-robin pop
* `src/llm.c`     — reasoning-envelope (`<think>…</think>`) stripping
* `src/logger.c`  — webhook ingress request handling, circular log file
* `src/whitelist.c` — sorted persisted access list
* `src/commands.c`  — slash-command parsing and dispatch

C strings are modelled as `List Nat` of their content bytes (the bytes before
the terminating NUL); machine integers are modelled as `Nat`/`Int` with
explicit `% 2^w` where wrap-around matters.
-/

namespace TgBot

/-- Content bytes of an ASCII/UTF-8 string literal (no terminating NUL). -/
def byteStr (s : String) : List Nat := s.data.map Char.toNat

/-- ASCII `tolower` on a byte, as used by `strcasecmp`-family functions. -/
def lowerByte (b : Nat) : Nat := if 65 ≤ b ∧ b ≤ 90 then b + 32 else b

/-- A well-formed C string content: no interior NUL bytes, all bytes < 256. -/
def CStr (s : List Nat) : Prop := ∀ b ∈ s, b ≠ 0 ∧ b < 256

instance : DecidablePred CStr := fun s => by
  unfold CStr; infer_instance

/-! ## Command dispatcher (`src/commands.c`) -/

namespace Commands

/-- Byte predicate for the command-name scan of `parse_command`:
the C loop `while (*end && *end != ' ' && *end != '@') end++`. -/
def cmdByte (b : Nat) : Bool := b != 0 && b != 32 && b != 64

/-- Byte predicate for the `@botusername` suffix scan:
the C loop `while (*at_end && *at_end != ' ') at_end++`. -/
def suffixByte (b : Nat) : Bool := b != 0 && b != 32

/-- Embedding of `parse_command` (src/commands.c:18-63).  Input is the full
message text; result is `some (cmd, args)` on success, `none` when the text
is not a command, the name is empty or ≥ 64 bytes (the caller's buffer), or
an `@suffix` addresses a different bot. `bot_username = none` models a NULL
`bot_username` in the `CmdCtx`. -/
def parse_command (text : List Nat) (bot_username : Option (List Nat)) :
    Option (List Nat × List Nat) :=
  match text with
  | [] => none
  | b :: rest =>
    if b ≠ 47 then none
    else
      let cmd := rest.takeWhile cmdByte
      let after := rest.dropWhile cmdByte
      if cmd.length = 0 ∨ cmd.length ≥ 64 then none
      else
        match after with
        | 64 :: tail =>
          -- '@botusername' suffix
          let suffix := tail.takeWhile suffixByte
          let rest2 := tail.dropWhile suffixByte
          (match bot_username with
           | some u =>
             if suffix.length = u.length ∧ suffix.map lowerByte = u.map lowerByte then
               some (cmd, (rest2.dropWhile (· == 32)))
             else
               none
           | none => some (cmd, (rest2.dropWhile (· == 32))))
        | _ => some (cmd, (after.dropWhile (· == 32)))

/-- `strcmp` on content byte lists: the terminating NUL makes a proper prefix
compare less than the longer string. Returns the sign of the C result. -/
def strcmpBytes : List Nat → List Nat → Int
  | [], [] => 0
  | [], _ :: _ => -1
  | _ :: _, [] => 1
  | a :: as, b :: bs =>
    if a < b then -1 else if b < a then 1 else strcmpBytes as bs

/-- The static command table of src/commands.c:193-198, alphabetically
sorted; `true` marks `CMD_HASARG` entries. -/
def cmd_table : List (List Nat × Bool) :=
  [(byteStr "allow", true), (byteStr "help", false), (byteStr "revoke", true),
   (byteStr "start", false), (byteStr "status", false)]

/-- The binary-search loop of `cmd_lookup` (src/commands.c:203-218). -/
def cmd_lookup_go (name : List Nat) (lo hi : Int) : Option (List Nat × Bool) :=
  if h : lo ≤ hi then
    let mid : Int := lo + (hi - lo) / 2
    let entry := cmd_table.getD mid.toNat ([], false)
    let c := strcmpBytes name entry.1
    if c < 0 then cmd_lookup_go name lo (mid - 1)
    else if 0 < c then cmd_lookup_go name (mid + 1) hi
    else some entry
  else none
termination_by (hi + 1 - lo).toNat
decreasing_by
  all_goals omega

/-- Embedding of `cmd_lookup`: binary search over the sorted table. -/
def cmd_lookup (name : List Nat) : Option (List Nat × Bool) :=
  cmd_lookup_go name 0 (cmd_table.length - 1)

/-- Embedding of `cmd_dispatch` (src/commands.c:220-244), restricted to its
return value: `1` when the text parsed to a known command whose handler ran
("handled"), `0` otherwise.  The handlers' queue side effects are modelled
with the queue component. -/
def cmd_dispatch (bot_username : Option (List Nat)) (text : List Nat) : Nat :=
  match text with
  | [] => 0
  | b :: _ =>
    if b ≠ 47 then 0
    else
      match parse_command text bot_username with
      | none => 0
      | some (cmd, _args) =>
        match cmd_lookup cmd with
        | none => 0
        | some _ => 1

end Commands

/-- C10: when the command context's bot username is NULL (unknown),
`cmd_dispatch` accepts a known command with any `@suffix`: for every suffix
string `s`, the message `"/help@" ++ s` parses with the suffix skipped
(command name `help`) and the help command is dispatched (returns handled). -/
theorem cmd_dispatch_accepts_any_suffix_when_username_unknown
    (s : List Nat) (_hs : ∀ b ∈ s, b ≠ 0) :
    (∃ args, Commands.parse_command (byteStr "/help@" ++ s) none =
      some (byteStr "help", args)) ∧
    Commands.cmd_dispatch none (byteStr "/help@" ++ s) = 1 := by
  constructor
  · exact ⟨(s.dropWhile Commands.suffixByte).dropWhile (· == 32), by
      simp [byteStr, Commands.parse_command, Commands.cmdByte]⟩
  · simp [byteStr, Commands.cmd_dispatch, Commands.parse_command, Commands.cmd_lookup,
      Commands.cmd_lookup_go, Commands.cmd_table, Commands.strcmpBytes, Commands.cmdByte]

/-- Witness for C10 at the concrete suffix `otherbot`. -/
theorem cmd_dispatch_accepts_any_suffix_witness :
    (∀ b ∈ byteStr "otherbot", b ≠ 0) ∧
    Commands.cmd_dispatch none (byteStr "/help@otherbot") = 1 := by
  refine ⟨by decide, ?_⟩
  have h := cmd_dispatch_accepts_any_suffix_when_username_unknown
    (byteStr "otherbot") (by decide)
  simpa [byteStr] using h.2

/-! ## Access list (`src/whitelist.c`)

The in-memory list is the `ids[0..count)` prefix of the C array, modelled as
a `List Int`; the persisted file is modelled as its list of lines, each line
the content bytes before the newline that `whitelist_save` prints. -/

namespace Whitelist

/-- `WHITELIST_MAX` from config.h. -/
def WHITELIST_MAX : Nat := 256

/-- Decimal digit bytes of a natural number, most significant first (the
digits that `fprintf "%ld"` produces for a non-negative value). -/
def decDigits (n : Nat) : List Nat :=
  if h : n < 10 then [48 + n]
  else decDigits (n / 10) ++ [48 + n % 10]
termination_by n
decreasing_by omega

/-- The line content that `whitelist_save` writes for one identifier:
`fprintf(fp, "%" PRId64 "\n", id)` without the final newline. -/
def render (i : Int) : List Nat :=
  if i < 0 then 45 :: decDigits i.natAbs else decDigits i.toNat

/-- `isspace` bytes skipped by `sscanf` before `%d`-style conversions. -/
def isWsByte (b : Nat) : Bool :=
  b == 32 || b == 9 || b == 10 || b == 11 || b == 12 || b == 13

/-- ASCII decimal digit. -/
def isDigitByte (b : Nat) : Bool := 48 ≤ b && b ≤ 57

/-- Value of a digit-byte string, most significant first. -/
def digitsVal (ds : List Nat) : Nat := ds.foldl (fun a d => a * 10 + (d - 48)) 0

/-- Embedding of `sscanf(line, "%" SCNd64, &id) == 1` as used by `read_ids`
(src/whitelist.c:60-63): skip leading whitespace, optional sign, then at
least one decimal digit; trailing non-digit bytes are ignored. -/
def parseLine (l : List Nat) : Option Int :=
  let l1 := l.dropWhile isWsByte
  let sign := l1.headD 0
  let neg : Bool := sign == 45
  let l2 := if sign == 45 || sign == 43 then l1.tail else l1
  let ds := l2.takeWhile isDigitByte
  if ds = [] then none
  else some (if neg then -(digitsVal ds : Int) else (digitsVal ds : Int))

/-- The scan loop of `bsearch_idx` (src/whitelist.c:20-36): on return
`(pos, found)`, `found` mirrors `*found` and `pos` the returned index. -/
def bsearch_go (ids : List Int) (x : Int) (lo hi : Nat) : Nat × Bool :=
  if h : lo < hi then
    let mid := lo + (hi - lo) / 2
    let v := ids.getD mid 0
    if v < x then bsearch_go ids x (mid + 1) hi
    else if x < v then bsearch_go ids x lo mid
    else (mid, true)
  else (lo, false)
termination_by hi - lo
decreasing_by all_goals omega

/-- `bsearch_idx` on the whole list (`lo = 0`, `hi = wl->count`). -/
def bsearch_idx (ids : List Int) (x : Int) : Nat × Bool :=
  bsearch_go ids x 0 ids.length

/-- Embedding of `whitelist_contains` (src/whitelist.c:125-132). -/
def whitelist_contains (ids : List Int) (x : Int) : Bool :=
  (bsearch_idx ids x).2

/-- Embedding of the in-memory part of `whitelist_add`
(src/whitelist.c:134-155): returns the new list and the C return code
(`1` duplicate, `-1` full, `0` inserted). -/
def whitelist_add (ids : List Int) (x : Int) : List Int × Int :=
  let (pos, found) := bsearch_idx ids x
  if found then (ids, 1)
  else if ids.length ≥ WHITELIST_MAX then (ids, -1)
  else (ids.take pos ++ x :: ids.drop pos, 0)

/-- Embedding of the in-memory part of `whitelist_remove`
(src/whitelist.c:157-176): returns the new list and the C return code
(`1` not found, `0` removed). -/
def whitelist_remove (ids : List Int) (x : Int) : List Int × Int :=
  let (idx, found) := bsearch_idx ids x
  if !found then (ids, 1)
  else (ids.take idx ++ ids.drop (idx + 1), 0)

/-- Embedding of `whitelist_save` (src/whitelist.c:90-122): the file lines
after a successful atomic save. -/
def whitelist_save (ids : List Int) : List (List Nat) := ids.map render

/-- The read loop of `read_ids` (src/whitelist.c:55-67): parse each line,
skipping non-numeric ones, stopping once `WHITELIST_MAX` entries are held. -/
def collectIds : List (List Nat) → Nat → List Int
  | [], _ => []
  | line :: rest, count =>
    if count ≥ WHITELIST_MAX then []
    else
      match parseLine line with
      | some id => id :: collectIds rest (count + 1)
      | none => collectIds rest count

/-- Embedding of `read_ids` (src/whitelist.c:38-75) on an existing file:
collect then sort ascending.  The C `qsort` with `cmp_i64` is modelled by
`insertionSort (· ≤ ·)`: on `Int` the `≤`-sorted rearrangement of a list is
unique, so every comparison sort produces the same list. -/
def read_ids (lines : List (List Nat)) : List Int :=
  (collectIds lines 0).insertionSort (· ≤ ·)

/-- One persisted mutation of the access list. -/
inductive WlOp
  | add (id : Int)
  | remove (id : Int)

/-- Apply one mutation to the pair (in-memory list, persisted file lines);
the file is rewritten exactly when the C code calls `whitelist_save`
(return code 0). -/
def wlStep : List Int × List (List Nat) → WlOp → List Int × List (List Nat)
  | (ids, file), WlOp.add x =>
    let (ids', rc) := whitelist_add ids x
    (ids', if rc = 0 then whitelist_save ids' else file)
  | (ids, file), WlOp.remove x =>
    let (ids', rc) := whitelist_remove ids x
    (ids', if rc = 0 then whitelist_save ids' else file)

/-- State after loading an empty file (`whitelist_load` on a fresh path)
and applying a sequence of mutations. -/
def runWl (ops : List WlOp) : List Int × List (List Nat) :=
  ops.foldl wlStep ([], [])

end Whitelist

namespace Whitelist

theorem decDigits_ne_nil (n : Nat) : decDigits n ≠ [] := by
  rw [decDigits]
  split <;> simp

theorem decDigits_all_digits (n : Nat) : ∀ d ∈ decDigits n, 48 ≤ d ∧ d ≤ 57 := by
  induction n using Nat.strong_induction_on with
  | _ n ih =>
    rw [decDigits]
    split
    · next h => intro d hd; simp at hd; omega
    · next h =>
      intro d hd
      simp only [List.mem_append, List.mem_singleton] at hd
      rcases hd with hd | hd
      · exact ih (n / 10) (by omega) d hd
      · omega

theorem digitsVal_append_digit (xs : List Nat) (d : Nat) :
    digitsVal (xs ++ [d]) = 10 * digitsVal xs + (d - 48) := by
  simp [digitsVal, List.foldl_append]
  ring

theorem digitsVal_decDigits (n : Nat) : digitsVal (decDigits n) = n := by
  induction n using Nat.strong_induction_on with
  | _ n ih =>
    rw [decDigits]
    split
    · next h => simp [digitsVal]
    · next h =>
      rw [digitsVal_append_digit, ih (n / 10) (by omega)]
      omega

theorem parseLine_render (i : Int) : parseLine (render i) = some i := by
  by_cases hneg : i < 0
  · obtain ⟨d, ds, hnil⟩ : ∃ d ds, decDigits i.natAbs = d :: ds := by
      rcases h : decDigits i.natAbs with _ | ⟨d, ds⟩
      · exact absurd h (decDigits_ne_nil _)
      · exact ⟨d, ds, rfl⟩
    have hd := decDigits_all_digits i.natAbs
    have htake : (d :: ds).takeWhile isDigitByte = d :: ds := by
      rw [List.takeWhile_eq_self_iff]
      intro x hx
      have := hd x (by rw [hnil]; exact hx)
      simp [isDigitByte]; omega
    have hval : digitsVal (d :: ds) = i.natAbs := by
      rw [← hnil, digitsVal_decDigits]
    have hd0 : 48 ≤ d ∧ d ≤ 57 := hd d (by rw [hnil]; exact List.mem_cons_self _ _)
    have habs : -((i.natAbs : Nat) : Int) = i := by omega
    simp only [render, if_pos hneg, hnil, parseLine, List.dropWhile_cons,
      show isWsByte 45 = false from rfl, Bool.false_eq_true, if_false,
      List.headD_cons, List.tail_cons, htake, hval, List.cons_ne_nil, habs]
    simp
    constructor
    · simp [isDigitByte]; omega
    · rw [htake, hval]; exact habs
  · obtain ⟨d, ds, hnil⟩ : ∃ d ds, decDigits i.toNat = d :: ds := by
      rcases h : decDigits i.toNat with _ | ⟨d, ds⟩
      · exact absurd h (decDigits_ne_nil _)
      · exact ⟨d, ds, rfl⟩
    have hd := decDigits_all_digits i.toNat
    have hd0 : 48 ≤ d ∧ d ≤ 57 := hd d (by rw [hnil]; exact List.mem_cons_self _ _)
    have hws : isWsByte d = false := by simp [isWsByte]; omega
    have htake : (d :: ds).takeWhile isDigitByte = d :: ds := by
      rw [List.takeWhile_eq_self_iff]
      intro x hx
      have := hd x (by rw [hnil]; exact hx)
      simp [isDigitByte]; omega
    have hval : digitsVal (d :: ds) = i.toNat := by
      rw [← hnil, digitsVal_decDigits]
    have hcast : ((i.toNat : Nat) : Int) = i := by omega
    have hsign : (d == 45 || d == 43) = false := by
      simp; omega
    have hnegb : (d == 45) = false := by simp; omega
    have h43 : d ≠ 43 := by omega
    simp only [render, if_neg hneg, hnil, parseLine, List.dropWhile_cons, hws,
      Bool.false_eq_true, if_false, List.headD_cons, hsign, hnegb,
      htake, hval, List.cons_ne_nil, hcast]
    simp
    simp only [if_neg h43]
    refine ⟨⟨by simp, by simp [isDigitByte]; omega⟩, ?_⟩
    rw [htake, hval]; exact hcast

theorem sorted_getD_lt {ids : List Int} (hsort : List.Sorted (· < ·) ids)
    {i j : Nat} (hij : i < j) (hj : j < ids.length) :
    ids.getD i 0 < ids.getD j 0 := by
  rw [List.getD_eq_getElem _ _ (by omega), List.getD_eq_getElem _ _ hj]
  exact List.pairwise_iff_getElem.mp hsort i j (by omega) hj hij

/-- Behaviour of the `bsearch_idx` scan loop on a sorted segment. -/
theorem bsearch_go_spec (ids : List Int) (x : Int)
    (hsort : List.Sorted (· < ·) ids) :
    ∀ (n lo hi : Nat), hi - lo ≤ n → hi ≤ ids.length → lo ≤ hi →
      (∀ i, i < lo → ids.getD i 0 < x) →
      (∀ i, hi ≤ i → i < ids.length → x < ids.getD i 0) →
      (((bsearch_go ids x lo hi).2 = true →
          (bsearch_go ids x lo hi).1 < ids.length ∧
          ids.getD (bsearch_go ids x lo hi).1 0 = x) ∧
       ((bsearch_go ids x lo hi).2 = false →
          lo ≤ (bsearch_go ids x lo hi).1 ∧ (bsearch_go ids x lo hi).1 ≤ hi ∧
          (∀ i, i < (bsearch_go ids x lo hi).1 → ids.getD i 0 < x) ∧
          (∀ i, (bsearch_go ids x lo hi).1 ≤ i → i < ids.length →
            x < ids.getD i 0))) := by
  intro n
  induction n with
  | zero =>
    intro lo hi h1 h2 hlohi hlo hhi
    rw [bsearch_go, dif_neg (by omega)]
    refine ⟨fun h => by simp at h, fun _ => ⟨le_refl _, by omega, hlo, ?_⟩⟩
    intro i hge hlen
    exact hhi i (by omega) hlen
  | succ n ih =>
    intro lo hi h1 h2 hlohi hlo hhi
    rw [bsearch_go]
    by_cases h : lo < hi
    · rw [dif_pos h]
      dsimp only
      have hmlt : lo + (hi - lo) / 2 < hi := by omega
      have hmge : lo ≤ lo + (hi - lo) / 2 := by omega
      by_cases hvx : ids.getD (lo + (hi - lo) / 2) 0 < x
      · rw [if_pos hvx]
        have H := ih (lo + (hi - lo) / 2 + 1) hi (by omega) h2 (by omega)
          (by
            intro i hilt
            rcases Nat.lt_or_ge i (lo + (hi - lo) / 2) with hcase | hcase
            · exact lt_trans (sorted_getD_lt hsort hcase (by omega)) hvx
            · have : i = lo + (hi - lo) / 2 := by omega
              rw [this]; exact hvx)
          hhi
        refine ⟨H.1, fun hf => ?_⟩
        obtain ⟨ha, hb, hc, hd⟩ := H.2 hf
        exact ⟨by omega, hb, hc, hd⟩
      · rw [if_neg hvx]
        by_cases hxv : x < ids.getD (lo + (hi - lo) / 2) 0
        · rw [if_pos hxv]
          have H := ih lo (lo + (hi - lo) / 2) (by omega) (by omega) (by omega) hlo
            (by
              intro i hge hlen
              rcases Nat.lt_or_ge (lo + (hi - lo) / 2) i with hcase | hcase
              · exact lt_trans hxv (sorted_getD_lt hsort hcase hlen)
              · have : i = lo + (hi - lo) / 2 := by omega
                rw [this]; exact hxv)
          refine ⟨H.1, fun hf => ?_⟩
          obtain ⟨ha, hb, hc, hd⟩ := H.2 hf
          exact ⟨ha, by omega, hc, hd⟩
        · rw [if_neg hxv]
          dsimp only
          refine ⟨fun _ => ⟨by omega, by omega⟩, fun hfalse => by simp at hfalse⟩
    · rw [dif_neg h]
      refine ⟨fun hh => by simp at hh, fun _ => ⟨le_refl _, by omega, hlo, ?_⟩⟩
      intro i hge hlen
      exact hhi i (by omega) hlen

theorem bsearch_idx_found {ids : List Int} (hsort : List.Sorted (· < ·) ids)
    {x : Int} (h : (bsearch_idx ids x).2 = true) : x ∈ ids := by
  have := (bsearch_go_spec ids x hsort ids.length 0 ids.length (by omega)
    (le_refl _) (by omega) (by omega) (by omega)).1 h
  rw [List.getD_eq_getElem _ _ this.1] at this
  exact this.2 ▸ List.getElem_mem _

theorem bsearch_idx_not_found {ids : List Int} (hsort : List.Sorted (· < ·) ids)
    {x : Int} (h : (bsearch_idx ids x).2 = false) :
    (bsearch_idx ids x).1 ≤ ids.length ∧
    (∀ i, i < (bsearch_idx ids x).1 → ids.getD i 0 < x) ∧
    (∀ i, (bsearch_idx ids x).1 ≤ i → i < ids.length → x < ids.getD i 0) := by
  have := (bsearch_go_spec ids x hsort ids.length 0 ids.length (by omega)
    (le_refl _) (by omega) (by omega) (by omega)).2 h
  exact ⟨this.2.1, this.2.2.1, this.2.2.2⟩

/-- Data invariant tying the in-memory list to the persisted file: the list
is strictly ascending, holds at most `WHITELIST_MAX` entries, and the file
is exactly its rendering. -/
def WlInv (st : List Int × List (List Nat)) : Prop :=
  List.Sorted (· < ·) st.1 ∧ st.1.length ≤ WHITELIST_MAX ∧
    st.2 = st.1.map render

theorem insert_sorted {ids : List Int} {x : Int}
    (hsort : List.Sorted (· < ·) ids) (hnf : (bsearch_idx ids x).2 = false) :
    List.Sorted (· < ·)
      (ids.take (bsearch_idx ids x).1 ++ x :: ids.drop (bsearch_idx ids x).1) := by
  obtain ⟨hle, hlt, hgt⟩ := bsearch_idx_not_found hsort hnf
  have h1 : ∀ a ∈ ids.take (bsearch_idx ids x).1, a < x := by
    intro a ha
    rw [List.mem_take_iff_getElem] at ha
    obtain ⟨i, hi, rfl⟩ := ha
    have hi' : i < (bsearch_idx ids x).1 := by omega
    have := hlt i hi'
    rwa [List.getD_eq_getElem _ _ (by omega)] at this
  have h2 : ∀ b ∈ ids.drop (bsearch_idx ids x).1, x < b := by
    intro b hb
    rw [List.mem_iff_getElem] at hb
    obtain ⟨j, hj, rfl⟩ := hb
    rw [List.getElem_drop]
    have hlen : (bsearch_idx ids x).1 + j < ids.length := by
      have := hj; simp [List.length_drop] at this; omega
    have := hgt ((bsearch_idx ids x).1 + j) (by omega) hlen
    rwa [List.getD_eq_getElem _ _ hlen] at this
  rw [List.Sorted, List.pairwise_append]
  refine ⟨List.Pairwise.sublist (List.take_sublist _ _) hsort,
    List.pairwise_cons.mpr ⟨h2, List.Pairwise.sublist (List.drop_sublist _ _) hsort⟩,
    ?_⟩
  intro a ha b hb
  rcases List.mem_cons.mp hb with rfl | hb
  · exact h1 a ha
  · exact lt_trans (h1 a ha) (h2 b hb)

theorem remove_sorted {ids : List Int} {idx : Nat}
    (hsort : List.Sorted (· < ·) ids) :
    List.Sorted (· < ·) (ids.take idx ++ ids.drop (idx + 1)) := by
  have hsub : List.Sublist (ids.take idx ++ ids.drop (idx + 1)) ids := by
    conv_rhs => rw [← List.take_append_drop idx ids]
    refine List.Sublist.append_left ?_ _
    have : ids.drop (idx + 1) = (ids.drop idx).drop 1 := by
      rw [List.drop_drop]
    rw [this]
    exact List.drop_sublist _ _
  exact List.Pairwise.sublist hsub hsort

theorem wlStep_inv {st : List Int × List (List Nat)} (hinv : WlInv st)
    (op : WlOp) : WlInv (wlStep st op) := by
  obtain ⟨hsort, hlen, hfile⟩ := hinv
  obtain ⟨ids, file⟩ := st
  cases op with
  | add x =>
    simp only [wlStep, whitelist_add]
    rcases hf : (bsearch_idx ids x).2 with _ | _
    · simp only [Bool.false_eq_true, if_false]
      by_cases hfull : ids.length ≥ WHITELIST_MAX
      · simp only [if_pos hfull]
        exact ⟨hsort, hlen, hfile⟩
      · simp only [if_neg hfull]
        have hle := (bsearch_idx_not_found hsort hf).1
        refine ⟨insert_sorted hsort hf, ?_,
          by simp [whitelist_save, List.map_take, List.map_drop]⟩
        simp only [List.length_append, List.length_take, List.length_cons,
          List.length_drop]
        simp only [WHITELIST_MAX] at hfull ⊢
        omega
    · simp only [if_true]
      exact ⟨hsort, hlen, hfile⟩
  | remove x =>
    simp only [wlStep, whitelist_remove]
    rcases hf : (bsearch_idx ids x).2 with _ | _
    · simp only [Bool.not_false, if_true]
      exact ⟨hsort, hlen, hfile⟩
    · simp only [Bool.not_true, Bool.false_eq_true, if_false]
      refine ⟨remove_sorted hsort, ?_,
        by simp [whitelist_save, List.map_take, List.map_drop]⟩
      simp only [List.length_append, List.length_take, List.length_drop]
      simp only [WHITELIST_MAX] at hlen ⊢
      omega

theorem runWl_inv (ops : List WlOp) : WlInv (runWl ops) := by
  have hgen : ∀ (l : List WlOp) (st : List Int × List (List Nat)),
      WlInv st → WlInv (l.foldl wlStep st) := by
    intro l
    induction l with
    | nil => intro st h; exact h
    | cons op rest ih => intro st h; exact ih _ (wlStep_inv h op)
  exact hgen ops ([], []) ⟨List.sorted_nil, by simp [WHITELIST_MAX], by simp⟩

theorem collectIds_map_render (ids : List Int) :
    ∀ count, count + ids.length ≤ WHITELIST_MAX →
      collectIds (ids.map render) count = ids := by
  induction ids with
  | nil => intro count h; simp [collectIds]
  | cons x rest ih =>
    intro count h
    simp only [List.map_cons, collectIds, parseLine_render]
    rw [if_neg (by simp at h ⊢; omega)]
    rw [ih (count + 1) (by simp at h ⊢; omega)]

/-- C8: access-list persistence round-trip.  Starting from a load of an
empty file and applying any sequence of `whitelist_add` / `whitelist_remove`
calls (each mutation saving the file), re-loading the persisted file with
`read_ids` into a fresh instance yields exactly the in-memory list — in
particular the same set of identifiers. -/
theorem whitelist_roundtrip (ops : List WlOp) :
    read_ids (runWl ops).2 = (runWl ops).1 := by
  obtain ⟨hsort, hlen, hfile⟩ := runWl_inv ops
  rw [read_ids, hfile, collectIds_map_render _ 0 (by omega)]
  exact List.Sorted.insertionSort_eq (hsort.imp (fun {a b} h => le_of_lt h))

/-- C9: `whitelist_load` sorts but never deduplicates.  A file with the same
identifier on two lines loads to a list holding it twice (adjacent after
sorting) — strict ascending order is not established — while
`whitelist_contains` still finds the identifier. -/
theorem whitelist_load_keeps_duplicates :
    read_ids [render 77, render 77] = [77, 77] ∧
    whitelist_contains [77, 77] 77 = true ∧
    ¬ List.Sorted (· < ·) ([77, 77] : List Int) := by
  refine ⟨?_, ?_, by decide⟩
  · rw [show ([render 77, render 77] : List (List Nat)) =
        ([77, 77] : List Int).map render by simp]
    rw [read_ids, collectIds_map_render _ 0 (by simp [WHITELIST_MAX])]
    simp [List.insertionSort, List.orderedInsert]
  · have hstep : bsearch_go [77, 77] 77 0 2 = (1, true) := by
      rw [bsearch_go]
      norm_num
    rw [whitelist_contains, bsearch_idx]
    simp [hstep]

end Whitelist

/-! ## Reasoning-envelope stripping (`src/llm.c`)

`llm_strip_think_tags` (src/llm.c:132-208) is a single left-to-right pass
over the NUL-terminated buffer; the buffer is modelled as the list of its
content bytes. -/

namespace Llm
/-- Case-insensitive match of the five literal bytes of "think"
(the tail of `strncasecmp(src, "<think", 6) == 0` past the exact `<`). -/
def thinkWord (r1 r2 r3 r4 r5 : Nat) : Bool :=
  lowerByte r1 == 116 && lowerByte r2 == 104 && lowerByte r3 == 105 &&
    lowerByte r4 == 110 && lowerByte r5 == 107

/-- The close-tag search loop of src/llm.c:168-176: scan forward for a
case-insensitive `</think>` (8 bytes, bounds-checked); return the bytes
after it, or `[]` when no close tag exists (the C code then sets
`src = end`, stripping the remainder).  A byte comparison
`rest.getD i 0 == lit` renders the C's `pos < end && *pos == lit`:
out of bounds the default `0` differs from every tag literal. -/
def dropThroughClose : List Nat → List Nat
  | [] => []
  | c :: rest =>
    if c == 60 && rest.getD 0 0 == 47 &&
        thinkWord (rest.getD 1 0) (rest.getD 2 0) (rest.getD 3 0)
          (rest.getD 4 0) (rest.getD 5 0) &&
        rest.getD 6 0 == 62 && decide (7 ≤ rest.length) then
      rest.drop 7
    else dropThroughClose rest

theorem dropThroughClose_length_le (l : List Nat) :
    (dropThroughClose l).length ≤ l.length := by
  induction l with
  | nil => simp [dropThroughClose]
  | cons c rest ih =>
    rw [dropThroughClose]
    split
    · simp; omega
    · exact le_trans ih (by simp)

/-- The scan loop of `llm_strip_think_tags` (src/llm.c:143-187), before the
whitespace trim.  Each branch advances `src` exactly as the C does:
`"<think/>"` consumes 8 bytes, `"<think/ />"` 10 (the `after_tag` pointer
was already advanced past the `/`), `"<think />"` 9, and an opening
`"<think>"` hands the tail to the close-tag search. -/
def stripGo : List Nat → List Nat
  | [] => []
  | c :: rest =>
    if c == 60 &&
        thinkWord (rest.getD 0 0) (rest.getD 1 0) (rest.getD 2 0)
          (rest.getD 3 0) (rest.getD 4 0) &&
        decide (6 ≤ rest.length) then
      if rest.getD 5 0 == 47 && rest.getD 6 0 == 62 then
        stripGo (rest.drop 7)
      else if rest.getD 5 0 == 47 && rest.getD 6 0 == 32 &&
          rest.getD 7 0 == 47 && rest.getD 8 0 == 62 then
        stripGo (rest.drop 9)
      else if rest.getD 5 0 == 32 && rest.getD 6 0 == 47 &&
          rest.getD 7 0 == 62 then
        stripGo (rest.drop 8)
      else if rest.getD 5 0 == 62 then
        stripGo (dropThroughClose (rest.drop 6))
      else
        c :: stripGo rest
    else
      c :: stripGo rest
termination_by l => l.length
decreasing_by
  · simp; omega
  · simp; omega
  · simp; omega
  · have := dropThroughClose_length_le (rest.drop 6)
    simp at this ⊢
    omega
  · simp
  · simp

/-- Trim bytes of the final pass of src/llm.c:189-205. -/
def isTrimByte (b : Nat) : Bool := b == 32 || b == 9 || b == 10 || b == 13

/-- Leading and trailing ASCII-whitespace trim of src/llm.c:189-205. -/
def trimBytes (l : List Nat) : List Nat :=
  ((l.dropWhile isTrimByte).reverse.dropWhile isTrimByte).reverse

/-- Embedding of `llm_strip_think_tags` (src/llm.c:132-208): the strip pass
followed by the whitespace trim.  The C function returns the new length;
the model returns the resulting buffer content. -/
def llm_strip_think_tags (text : List Nat) : List Nat :=
  trimBytes (stripGo text)

/-- Case-insensitive prefix test used to state the claim postcondition. -/
def startsWithCI (pat l : List Nat) : Bool :=
  decide (pat.length ≤ l.length) &&
    ((l.take pat.length).map lowerByte == pat.map lowerByte)

/-- Case-insensitive substring test used to state the claim
postcondition. -/
def containsSeq (pat : List Nat) : List Nat → Bool
  | [] => startsWithCI pat []
  | c :: rest => startsWithCI pat (c :: rest) || containsSeq pat rest

theorem lowerByte_eq_60_iff (b : Nat) : lowerByte b = 60 ↔ b = 60 := by
  unfold lowerByte; split <;> omega

theorem stripGo_no60_front {bs : List Nat} (h : ∀ b ∈ bs, b ≠ 60)
    (rest : List Nat) : stripGo (bs ++ rest) = bs ++ stripGo rest := by
  induction bs with
  | nil => simp
  | cons c bs' ih =>
    have hc : c ≠ 60 := h c (List.mem_cons_self _ _)
    rw [List.cons_append, stripGo]
    simp only [show (c == 60) = false by simpa using hc, Bool.false_and,
      Bool.false_eq_true, if_false]
    rw [ih (fun b hb => h b (List.mem_cons_of_mem _ hb))]
    simp

theorem dropThroughClose_no60_front {bs : List Nat} (h : ∀ b ∈ bs, b ≠ 60)
    (l : List Nat) : dropThroughClose (bs ++ l) = dropThroughClose l := by
  induction bs with
  | nil => simp
  | cons c bs' ih =>
    have hc : c ≠ 60 := h c (List.mem_cons_self _ _)
    rw [List.cons_append, dropThroughClose]
    simp only [show (c == 60) = false by simpa using hc, Bool.false_and,
      Bool.false_eq_true, if_false]
    exact ih (fun b hb => h b (List.mem_cons_of_mem _ hb))

theorem dropThroughClose_no60 {l : List Nat} (h : ∀ b ∈ l, b ≠ 60) :
    dropThroughClose l = [] := by
  induction l with
  | nil => rfl
  | cons c rest ih =>
    have hc : c ≠ 60 := h c (List.mem_cons_self _ _)
    rw [dropThroughClose]
    simp only [show (c == 60) = false by simpa using hc, Bool.false_and,
      Bool.false_eq_true, if_false]
    exact ih (fun b hb => h b (List.mem_cons_of_mem _ hb))

theorem dropThroughClose_close (rest : List Nat) :
    dropThroughClose (byteStr "</think>" ++ rest) = rest := by
  show dropThroughClose (60 :: 47 :: 116 :: 104 :: 105 :: 110 :: 107 :: 62 :: rest)
      = rest
  rw [dropThroughClose]
  norm_num [thinkWord, lowerByte]

theorem stripGo_selfClose1 (rest : List Nat) :
    stripGo (byteStr "<think/>" ++ rest) = stripGo rest := by
  show stripGo (60 :: 116 :: 104 :: 105 :: 110 :: 107 :: 47 :: 62 :: rest)
      = stripGo rest
  rw [stripGo]
  norm_num [thinkWord, lowerByte]

theorem stripGo_selfClose2 (rest : List Nat) :
    stripGo (byteStr "<think />" ++ rest) = stripGo rest := by
  show stripGo (60 :: 116 :: 104 :: 105 :: 110 :: 107 :: 32 :: 47 :: 62 :: rest)
      = stripGo rest
  rw [stripGo]
  norm_num [thinkWord, lowerByte]

theorem stripGo_block {body : List Nat} (h : ∀ b ∈ body, b ≠ 60)
    (rest : List Nat) :
    stripGo (byteStr "<think>" ++ (body ++ (byteStr "</think>" ++ rest))) =
      stripGo rest := by
  have heq : byteStr "<think>" ++ (body ++ (byteStr "</think>" ++ rest)) =
      60 :: 116 :: 104 :: 105 :: 110 :: 107 :: 62 ::
        (body ++ (byteStr "</think>" ++ rest)) := by
    simp [byteStr]
  rw [heq, stripGo]
  norm_num [thinkWord, lowerByte]
  rw [dropThroughClose_no60_front h, dropThroughClose_close]

theorem stripGo_openTail {tail : List Nat} (h : ∀ b ∈ tail, b ≠ 60) :
    stripGo (byteStr "<think>" ++ tail) = [] := by
  have : byteStr "<think>" ++ tail =
      60 :: 116 :: 104 :: 105 :: 110 :: 107 :: 62 :: tail := by
    simp [byteStr]
  rw [this, stripGo]
  norm_num [thinkWord, lowerByte]
  rw [dropThroughClose_no60 h]
  simp [stripGo]

/-- A think-structured input segment: `<`-free plain text, a self-closing
tag, or a well-formed block with `<`-free body. -/
inductive Seg where
  | plain (bs : List Nat)
  | selfClose1
  | selfClose2
  | block (body : List Nat)

/-- The bytes a segment contributes to the input buffer. -/
def segBytes : Seg → List Nat
  | .plain bs => bs
  | .selfClose1 => byteStr "<think/>"
  | .selfClose2 => byteStr "<think />"
  | .block body => byteStr "<think>" ++ body ++ byteStr "</think>"

/-- The bytes the stripper keeps from a segment. -/
def segKeep : Seg → List Nat
  | .plain bs => bs
  | _ => []

/-- Well-formedness of a segment: plain text and block bodies hold no `<`. -/
def SegOk : Seg → Prop
  | .plain bs => ∀ b ∈ bs, b ≠ 60
  | .block body => ∀ b ∈ body, b ≠ 60
  | _ => True

theorem stripGo_join (segs : List Seg) (hs : ∀ g ∈ segs, SegOk g)
    (suffix : List Nat) :
    stripGo ((segs.map segBytes).flatten ++ suffix) =
      (segs.map segKeep).flatten ++ stripGo suffix := by
  induction segs with
  | nil => simp
  | cons g rest ih =>
    have hg : SegOk g := hs g (List.mem_cons_self _ _)
    have hrest : ∀ g ∈ rest, SegOk g := fun g hgm => hs g (List.mem_cons_of_mem _ hgm)
    cases g with
    | plain bs =>
      simp only [List.map_cons, List.flatten_cons, segBytes, segKeep,
        List.append_assoc, List.nil_append]
      rw [stripGo_no60_front hg, ih hrest]
    | selfClose1 =>
      simp only [List.map_cons, List.flatten_cons, segBytes, segKeep,
        List.append_assoc, List.nil_append]
      rw [stripGo_selfClose1, ih hrest]
    | selfClose2 =>
      simp only [List.map_cons, List.flatten_cons, segBytes, segKeep,
        List.append_assoc, List.nil_append]
      rw [stripGo_selfClose2, ih hrest]
    | block body =>
      simp only [List.map_cons, List.flatten_cons, segBytes, segKeep,
        List.append_assoc, List.nil_append]
      rw [stripGo_block hg, ih hrest]

theorem mem_trimBytes {l : List Nat} {b : Nat} (hb : b ∈ trimBytes l) :
    b ∈ l := by
  unfold trimBytes at hb
  rw [List.mem_reverse] at hb
  have h1 := (List.dropWhile_sublist _).mem hb
  rw [List.mem_reverse] at h1
  exact (List.dropWhile_sublist _).mem h1

theorem containsSeq_eq_false_of_no60 {pat : List Nat} {p' : List Nat}
    (hpat : pat = 60 :: p') {l : List Nat} (hl : ∀ b ∈ l, b ≠ 60) :
    containsSeq pat l = false := by
  induction l with
  | nil =>
    subst hpat
    simp [containsSeq, startsWithCI]
  | cons c rest ih =>
    have hc : c ≠ 60 := hl c (List.mem_cons_self _ _)
    rw [containsSeq, Bool.or_eq_false_iff]
    refine ⟨?_, ih (fun b hb => hl b (List.mem_cons_of_mem _ hb))⟩
    subst hpat
    rw [startsWithCI, Bool.and_eq_false_iff]
    right
    simp only [List.length_cons, List.take_succ_cons, List.map_cons]
    rw [beq_eq_false_iff_ne]
    intro hcontra
    have : lowerByte c = lowerByte 60 := by
      have := congrArg (fun l => l.headD 0) hcontra
      simpa using this
    rw [show lowerByte 60 = 60 from rfl] at this
    exact hc ((lowerByte_eq_60_iff c).mp this)

/-- C5 (amended): on think-structured inputs — a concatenation of `<`-free
plain text, well-formed self-closing tags and well-formed
`<think>…</think>` blocks with `<`-free bodies, optionally ending in an
unmatched `<think>` with `<`-free remainder — the stripped buffer holds no
`<` byte at all, hence no `<think…>` tag and no `</think>` substring
(case-insensitively).  The unconditional claim fails: see
`llm_strip_think_tags_splice`. -/
theorem llm_strip_think_tags_postcondition (segs : List Seg) (topen : Bool)
    (tail : List Nat) (hsegs : ∀ g ∈ segs, SegOk g)
    (htail : ∀ b ∈ tail, b ≠ 60) :
    (∀ b ∈ llm_strip_think_tags ((segs.map segBytes).flatten ++
        (if topen then byteStr "<think>" ++ tail else [])), b ≠ 60) ∧
    containsSeq (byteStr "<think>")
      (llm_strip_think_tags ((segs.map segBytes).flatten ++
        (if topen then byteStr "<think>" ++ tail else []))) = false ∧
    containsSeq (byteStr "</think>")
      (llm_strip_think_tags ((segs.map segBytes).flatten ++
        (if topen then byteStr "<think>" ++ tail else []))) = false := by
  have hstrip : stripGo ((segs.map segBytes).flatten ++
      (if topen then byteStr "<think>" ++ tail else [])) =
      (segs.map segKeep).flatten := by
    rw [stripGo_join segs hsegs]
    cases topen
    · simp [stripGo]
    · simp [stripGo_openTail htail]
  have hmem : ∀ b ∈ llm_strip_think_tags ((segs.map segBytes).flatten ++
      (if topen then byteStr "<think>" ++ tail else [])), b ≠ 60 := by
    intro b hb
    rw [llm_strip_think_tags, hstrip] at hb
    have hb' := mem_trimBytes hb
    rw [List.mem_flatten] at hb'
    obtain ⟨l, hl, hbl⟩ := hb'
    rw [List.mem_map] at hl
    obtain ⟨g, hg, rfl⟩ := hl
    have := hsegs g hg
    cases g with
    | plain bs => exact this b hbl
    | selfClose1 => simp [segKeep] at hbl
    | selfClose2 => simp [segKeep] at hbl
    | block body => simp [segKeep] at hbl
  refine ⟨hmem, ?_, ?_⟩
  · exact containsSeq_eq_false_of_no60
      (show byteStr "<think>" = 60 :: byteStr "think>" from rfl) hmem
  · exact containsSeq_eq_false_of_no60
      (show byteStr "</think>" = 60 :: byteStr "/think>" from rfl) hmem

/-- Witness for the amended C5 at a concrete think-structured input. -/
theorem llm_strip_think_tags_postcondition_witness :
    (∀ g ∈ [Seg.plain (byteStr "ok "), Seg.block (byteStr "reason"),
        Seg.selfClose1], SegOk g) ∧
    containsSeq (byteStr "</think>")
      (llm_strip_think_tags ((([Seg.plain (byteStr "ok "),
          Seg.block (byteStr "reason"), Seg.selfClose1]).map segBytes).flatten ++
        (if true then byteStr "<think>" ++ byteStr "rest" else []))) = false := by
  have hseg : ∀ g ∈ [Seg.plain (byteStr "ok "), Seg.block (byteStr "reason"),
      Seg.selfClose1], SegOk g := by
    intro g hg
    simp only [List.mem_cons, List.not_mem_nil, or_false] at hg
    rcases hg with rfl | rfl | rfl
    · show ∀ b ∈ byteStr "ok ", b ≠ 60
      decide
    · show ∀ b ∈ byteStr "reason", b ≠ 60
      decide
    · trivial
  exact ⟨hseg, (llm_strip_think_tags_postcondition _ true _ hseg (by decide)).2.2⟩

/-- C5 as stated is false: stripping can splice the flanks of removed
self-closing tags into a brand-new `<think>…</think>`, and an orphan
`</think>` is preserved verbatim.  On this input the result is exactly
`<think></think>`, which contains both forbidden substrings. -/
theorem llm_strip_think_tags_splice :
    llm_strip_think_tags (byteStr "<th<think/>ink></th<think/>ink>") =
      byteStr "<think></think>" ∧
    containsSeq (byteStr "<think>")
      (llm_strip_think_tags (byteStr "<th<think/>ink></th<think/>ink>")) = true ∧
    containsSeq (byteStr "</think>")
      (llm_strip_think_tags (byteStr "<th<think/>ink></th<think/>ink>")) = true := by
  have heval : llm_strip_think_tags (byteStr "<th<think/>ink></th<think/>ink>") =
      byteStr "<think></think>" := by
    rw [show byteStr "<th<think/>ink></th<think/>ink>" =
      [60, 116, 104, 60, 116, 104, 105, 110, 107, 47, 62, 105, 110, 107, 62,
       60, 47, 116, 104, 60, 116, 104, 105, 110, 107, 47, 62, 105, 110, 107,
       62] from rfl]
    norm_num [llm_strip_think_tags, trimBytes, stripGo, thinkWord, lowerByte,
      isTrimByte, byteStr]
    decide
  refine ⟨heval, ?_, ?_⟩ <;> rw [heval] <;> decide

end Llm

/-! ## Webhook ingress (`on_request` in the webhook half of src/logger.c)

The completion phase of `on_request` is modelled as a pure function of the
request line, headers, body chunk sizes and whether the accumulated body
parses as JSON.  `strcmp(x, lit) == 0` is rendered as equality of content
byte lists. -/

namespace Webhook

/-- `RESPONSE_BUF_MAX` from config.h: 512 KiB. -/
def RESPONSE_BUF_MAX : Nat := 512 * 1024

/-- Embedding of `ct_strcmp` (constant-time secret comparison,
src/logger.c webhook half, lines 545-557).  `result` starts from the
byte-truncated XOR of the lengths and ORs in the XOR of every byte position
up to `max(len_a, len_b)` inclusive (the NUL terminators read as 0);
returns 1 when any bit survived, 0 on equality. -/
def ct_strcmp (a b : List Nat) : Nat :=
  let r0 := (a.length ^^^ b.length) % 256
  let r := (List.range (max a.length b.length + 1)).foldl
    (fun r i => r ||| ((a.getD i 0) ^^^ (b.getD i 0))) r0
  if r ≠ 0 then 1 else 0

/-- Embedding of `strncasecmp(a, b, n) == 0` on content byte lists: compare
up to `n` bytes case-insensitively; a NUL (list end) against a content byte
differs. -/
def strncasecmp_eq : List Nat → List Nat → Nat → Bool
  | _, _, 0 => true
  | [], [], _ + 1 => true
  | [], _ :: _, _ + 1 => false
  | _ :: _, [], _ + 1 => false
  | a :: as, b :: bs, n + 1 =>
    lowerByte a == lowerByte b && strncasecmp_eq as bs n

/-- Body accumulation across upload chunks (src/logger.c on_request,
lines 659-685): a chunk whose admission would need more than
`RESPONSE_BUF_MAX` bytes (body plus NUL) marks the body oversized by
setting the length to `RESPONSE_BUF_MAX + 1`. -/
def accumulate (chunks : List Nat) : Nat :=
  chunks.foldl
    (fun len c =>
      if len + c + 1 > RESPONSE_BUF_MAX then RESPONSE_BUF_MAX + 1 else len + c)
    0

/-- The secret-header test of src/logger.c:698-706: with a configured
secret, a missing header or a `ct_strcmp` mismatch rejects. -/
def secretMismatch (secret : List Nat) (hdr : Option (List Nat)) : Bool :=
  match hdr with
  | none => true
  | some h => ct_strcmp h secret != 0

/-- Continuation of `on_request` past the secret check
(src/logger.c:709-738): content-type, size, then JSON parse and callback.
Result is (HTTP status, whether the update callback was invoked). -/
def on_request_ct (ct : Option (List Nat)) (len : Nat) (parseOk : Bool) :
    Nat × Bool :=
  match ct with
  | none => (415, false)
  | some c =>
    if strncasecmp_eq c (byteStr "application/json") 16 = false then
      (415, false)
    else if len > RESPONSE_BUF_MAX then (413, false)
    else if 0 < len ∧ parseOk then (200, true)
    else (200, false)

/-- Embedding of the completion phase of `on_request`
(src/logger.c:687-752): checks in code order — method/path, secret,
content-type, size, parse. -/
def on_request (method url secret : List Nat) (hdr ct : Option (List Nat))
    (chunks : List Nat) (parseOk : Bool) : Nat × Bool :=
  if method ≠ byteStr "POST" ∨ url ≠ byteStr "/webhook" then (404, false)
  else if secret ≠ [] ∧ secretMismatch secret hdr = true then (403, false)
  else on_request_ct ct (accumulate chunks) parseOk

theorem nat_lor_eq_zero {a b : Nat} (h : a ||| b = 0) : a = 0 ∧ b = 0 := by
  have hb : ∀ i, a.testBit i = false ∧ b.testBit i = false := by
    intro i
    have := congrArg (fun x => Nat.testBit x i) h
    simp only [Nat.testBit_or, Nat.zero_testBit] at this
    exact Bool.or_eq_false_iff.mp this
  constructor
  · exact Nat.eq_of_testBit_eq (fun i => by simp [(hb i).1, Nat.zero_testBit])
  · exact Nat.eq_of_testBit_eq (fun i => by simp [(hb i).2, Nat.zero_testBit])

theorem lor_fold_eq_zero {f : Nat → Nat} {l : List Nat} {r0 : Nat}
    (h : l.foldl (fun r i => r ||| f i) r0 = 0) :
    r0 = 0 ∧ ∀ i ∈ l, f i = 0 := by
  induction l generalizing r0 with
  | nil => exact ⟨h, by simp⟩
  | cons a rest ih =>
    rw [List.foldl_cons] at h
    obtain ⟨h0, hrest⟩ := ih h
    obtain ⟨h1, h2⟩ := nat_lor_eq_zero h0
    refine ⟨h1, ?_⟩
    intro i hi
    rcases List.mem_cons.mp hi with rfl | hi
    · exact h2
    · exact hrest i hi

theorem ct_strcmp_eq_zero_iff {a b : List Nat} (ha : CStr a) (hb : CStr b) :
    ct_strcmp a b = 0 ↔ a = b := by
  constructor
  · intro h
    rw [ct_strcmp] at h
    have hr : (List.range (max a.length b.length + 1)).foldl
        (fun r i => r ||| ((a.getD i 0) ^^^ (b.getD i 0)))
        ((a.length ^^^ b.length) % 256) = 0 := by
      by_contra hne
      rw [if_pos hne] at h
      exact one_ne_zero h
    obtain ⟨_, hall⟩ := lor_fold_eq_zero hr
    have hbytes : ∀ i, i < max a.length b.length + 1 → a.getD i 0 = b.getD i 0 := by
      intro i hi
      exact Nat.xor_eq_zero.mp (hall i (List.mem_range.mpr hi))
    have hlen : a.length = b.length := by
      by_contra hne
      rcases Nat.lt_or_ge a.length b.length with hlt | hge
      · have hi : a.length < max a.length b.length + 1 := by omega
        have := hbytes a.length hi
        rw [List.getD_eq_default _ _ (le_refl _),
          List.getD_eq_getElem _ _ (by omega)] at this
        exact (hb _ (List.getElem_mem _)).1 this.symm
      · have hblt : b.length < a.length := by omega
        have hi : b.length < max a.length b.length + 1 := by omega
        have := hbytes b.length hi
        rw [List.getD_eq_getElem _ _ (by omega),
          List.getD_eq_default _ _ (le_refl _)] at this
        exact (ha _ (List.getElem_mem _)).1 this
    apply List.ext_getElem hlen
    intro i hi1 hi2
    have := hbytes i (by omega)
    rwa [List.getD_eq_getElem _ _ hi1, List.getD_eq_getElem _ _ hi2] at this
  · intro h
    subst h
    rw [ct_strcmp]
    have : (List.range (max a.length a.length + 1)).foldl
        (fun r i => r ||| ((a.getD i 0) ^^^ (a.getD i 0)))
        ((a.length ^^^ a.length) % 256) = 0 := by
      have h0 : (a.length ^^^ a.length) % 256 = 0 := by
        simp [Nat.xor_self]
      rw [h0]
      induction (List.range (max a.length a.length + 1)) with
      | nil => rfl
      | cons x rest ih => simpa [Nat.xor_self] using ih
    simp only [this]
    simp

theorem accumulate_spec (chunks : List Nat) :
    accumulate chunks =
      if RESPONSE_BUF_MAX ≤ chunks.sum then RESPONSE_BUF_MAX + 1
      else chunks.sum := by
  have hstuck : ∀ l : List Nat, l.foldl
      (fun len c =>
        if len + c + 1 > RESPONSE_BUF_MAX then RESPONSE_BUF_MAX + 1 else len + c)
      (RESPONSE_BUF_MAX + 1) = RESPONSE_BUF_MAX + 1 := by
    intro l
    induction l with
    | nil => rfl
    | cons c rest ih =>
      rw [List.foldl_cons, if_pos (by omega)]
      exact ih
  have hgen : ∀ (l : List Nat) (acc : Nat), acc < RESPONSE_BUF_MAX →
      l.foldl
        (fun len c =>
          if len + c + 1 > RESPONSE_BUF_MAX then RESPONSE_BUF_MAX + 1
          else len + c) acc =
        if RESPONSE_BUF_MAX ≤ acc + l.sum then RESPONSE_BUF_MAX + 1
        else acc + l.sum := by
    intro l
    induction l with
    | nil =>
      intro acc hacc
      simp only [List.foldl_nil, List.sum_nil, Nat.add_zero]
      rw [if_neg (by omega)]
    | cons c rest ih =>
      intro acc hacc
      rw [List.foldl_cons]
      by_cases hover : acc + c + 1 > RESPONSE_BUF_MAX
      · rw [if_pos hover, hstuck, if_pos (by simp only [List.sum_cons]; omega)]
      · rw [if_neg hover, ih (acc + c) (by omega)]
        simp only [List.sum_cons]
        split
        · next h => rw [if_pos (by omega)]
        · next h => rw [if_neg (by omega)]; omega
  have := hgen chunks 0 (by norm_num [RESPONSE_BUF_MAX])
  simpa using this

/-- Spec-side content-type acceptance: the first 16 bytes of the header
case-insensitively equal `application/json`. -/
def ctypeOk (ct : Option (List Nat)) : Bool :=
  match ct with
  | none => false
  | some c => strncasecmp_eq c (byteStr "application/json") 16

/-- C6 (amended): the completed request's status, checked in code order —
404 for a method other than POST or a path other than `/webhook`; with a
non-empty secret, 403 for a missing or non-matching header; 415 for a
missing or non-`application/json` content-type; 413 when the accumulated
body **reaches** 512 KiB (the limit check reserves one byte for the NUL
terminator, so exactly 512 KiB is already rejected); otherwise 200, with
the update callback invoked exactly when a non-empty body parsed. -/
theorem on_request_statuses (method url secret : List Nat)
    (hdr ct : Option (List Nat)) (chunks : List Nat) (parseOk : Bool)
    (hsec : CStr secret) (hhdr : ∀ h, hdr = some h → CStr h) :
    on_request method url secret hdr ct chunks parseOk =
      (if method ≠ byteStr "POST" ∨ url ≠ byteStr "/webhook" then (404, false)
       else if secret ≠ [] ∧ hdr ≠ some secret then (403, false)
       else if ctypeOk ct = false then (415, false)
       else if RESPONSE_BUF_MAX ≤ chunks.sum then (413, false)
       else if 0 < chunks.sum ∧ parseOk then (200, true)
       else (200, false)) := by
  rw [on_request]
  by_cases h404 : method ≠ byteStr "POST" ∨ url ≠ byteStr "/webhook"
  · rw [if_pos h404, if_pos h404]
  · rw [if_neg h404, if_neg h404]
    have hsecIff : (secret ≠ [] ∧ secretMismatch secret hdr = true) ↔
        (secret ≠ [] ∧ hdr ≠ some secret) := by
      apply and_congr_right
      intro _
      cases hdr with
      | none => simp [secretMismatch]
      | some h =>
        have := ct_strcmp_eq_zero_iff (hhdr h rfl) hsec
        simp only [secretMismatch, bne_iff_ne, ne_eq, Option.some.injEq]
        constructor
        · intro hne heq; exact hne (this.mpr heq)
        · intro hne heq; exact hne (this.mp heq)
    by_cases h403 : secret ≠ [] ∧ hdr ≠ some secret
    · rw [if_pos (hsecIff.mpr h403), if_pos h403]
    · rw [if_neg (fun hc => h403 (hsecIff.mp hc)), if_neg h403]
      cases ct with
      | none => simp [on_request_ct, ctypeOk]
      | some c =>
        simp only [on_request_ct, ctypeOk]
        by_cases hct : strncasecmp_eq c (byteStr "application/json") 16 = true
        case neg =>
          rw [Bool.not_eq_true] at hct
          simp [hct]
        case pos =>
          simp only [hct, Bool.true_eq_false, if_false]
          rw [accumulate_spec]
          by_cases hsize : RESPONSE_BUF_MAX ≤ chunks.sum
          · simp [hsize, Nat.lt_succ_self]
          · have hsz : ¬ chunks.sum > RESPONSE_BUF_MAX := by omega
            simp [hsize, hsz]

/-- Witness for the amended C6: a well-formed request with matching secret,
parameterised content-type and a 39-byte parseable body gets 200 and one
callback invocation. -/
theorem on_request_statuses_witness :
    CStr (byteStr "s3cret") ∧
    on_request (byteStr "POST") (byteStr "/webhook") (byteStr "s3cret")
      (some (byteStr "s3cret"))
      (some (byteStr "application/json; charset=utf-8")) [39] true =
      (200, true) := by
  refine ⟨by decide, ?_⟩
  have h := on_request_statuses (byteStr "POST") (byteStr "/webhook")
    (byteStr "s3cret") (some (byteStr "s3cret"))
    (some (byteStr "application/json; charset=utf-8")) [39] true
    (by decide)
    (by intro h hh; injection hh with hh; rw [← hh]; decide)
  rw [h]
  decide

/-- C6 as stated is false at the size boundary: an accumulated body of
exactly 512 KiB (not larger) is answered 413, because the admission check
counts the NUL terminator; the claim predicts 200 for it. -/
theorem on_request_413_at_exact_512KiB :
    on_request (byteStr "POST") (byteStr "/webhook") [] none
      (some (byteStr "application/json")) [512 * 1024] true = (413, false) ∧
    ¬ (512 * 1024 > 512 * 1024) := by
  exact ⟨by decide, by norm_num⟩

end Webhook

/-! ## Circular log (`src/logger.c`, logging half)

The log file is modelled as the list of its bytes; `log_write` is modelled
from the point where the formatted line bytes are fixed (the timestamp
formatting is wall-clock I/O).  A write below the minimum level returns
without touching any state and trivially preserves every invariant, so the
level gate is not modelled. -/

namespace CircLog

/-- The 20-byte overwrite marker literal of src/logger.c:19. -/
def MARKER : List Nat := byteStr "---^-OVERWRITE-^---\n"

/-- `MARKER_LEN`. -/
def MARKER_LEN : Nat := 20

/-- `LINE_BUF_MAX`. -/
def LINE_BUF_MAX : Nat := 4096

/-- The blanking bytes written over a stale marker before wrapping
(src/logger.c:286-288): 19 spaces and a newline. -/
def BLANKS : List Nat := List.replicate 19 32 ++ [10]

/-- The logger state: file bytes, `g_write_pos`, `g_overwriting`,
`g_max_bytes`. -/
structure LogState where
  file : List Nat
  write_pos : Nat
  overwriting : Bool
  max_bytes : Nat

/-- Overwrite `data` into `file` at byte offset `pos`, extending the file
when the write passes its current end (reachable states keep
`pos ≤ file.length`, so no seek hole arises). -/
def overwriteAt (file : List Nat) (pos : Nat) (data : List Nat) : List Nat :=
  file.take pos ++ data ++ file.drop (pos + data.length)

/-- Embedding of `raw_write` (src/logger.c:123-135): write at
`g_write_pos` and advance it. -/
def raw_write (st : LogState) (data : List Nat) : LogState :=
  if data.length = 0 then st
  else { st with file := overwriteAt st.file st.write_pos data,
                 write_pos := st.write_pos + data.length }

/-- Embedding of `write_marker` (src/logger.c:141-152): when overwriting,
place the marker at `g_write_pos` without advancing it. -/
def write_marker (st : LogState) : LogState :=
  if st.overwriting then
    { st with file := overwriteAt st.file st.write_pos MARKER }
  else st

/-- The stack formatting of src/logger.c:233-261 from the point where the
prefix and message bytes are fixed: clamp to `LINE_BUF_MAX - 2` and ensure
a trailing newline. -/
def formatLine (raw : List Nat) : List Nat :=
  let t := raw.take (LINE_BUF_MAX - 2)
  if t.getLast? = some 10 then t else t ++ [10]

/-- Embedding of the file-writing part of `log_write`
(src/logger.c:267-301): truncate the line to `max_bytes - MARKER_LEN`,
wrap (blanking the stale marker) when the line plus a marker would pass the
cap, write the line, then re-place the marker. -/
def log_write (st : LogState) (raw : List Nat) : LogState :=
  let line := (formatLine raw).take (st.max_bytes - MARKER_LEN)
  let space_needed := line.length + (if st.overwriting then MARKER_LEN else 0)
  let st1 :=
    if st.write_pos + space_needed > st.max_bytes then
      let blanked :=
        if st.overwriting ∧ st.write_pos + MARKER_LEN ≤ st.max_bytes then
          { st with file := overwriteAt st.file st.write_pos BLANKS }
        else st
      { blanked with write_pos := 0, overwriting := true }
    else st
  write_marker (raw_write st1 line)

/-- `log_init` on a fresh path (ENOENT → created empty): position 0, not
overwriting. -/
def logInit (cap : Nat) : LogState :=
  { file := [], write_pos := 0, overwriting := false, max_bytes := cap }

/-- Number of occurrences of `pat` as a contiguous substring: one term per
start position. -/
def countOccur (pat : List Nat) : List Nat → Nat
  | [] => if pat = [] then 1 else 0
  | c :: rest =>
    (if (c :: rest).take pat.length == pat then 1 else 0) + countOccur pat rest

theorem marker_length : MARKER.length = 20 := by decide

theorem marker_ne_nil : MARKER ≠ [] := by decide

theorem marker_getD_ne_10 : ∀ k, k < 19 → MARKER.getD k 0 ≠ 10 := by decide

theorem countOccur_marker_nil : countOccur MARKER [] = 0 := by
  rw [countOccur, if_neg marker_ne_nil]

theorem countOccur_cons (pat : List Nat) (c : Nat) (rest : List Nat) :
    countOccur pat (c :: rest) =
      (if ((c :: rest).take pat.length == pat) then 1 else 0) +
        countOccur pat rest := rfl

/-- A 20-window that starts inside a chunk whose last byte is a newline at
index ≤ 18 can never equal the marker (the marker's only newline is its
last byte). -/
theorem take_ne_marker_of_inner_newline {w : List Nat} {k : Nat}
    (hk : k < 19) (hkw : k < w.length) (hbyte : w.getD k 0 = 10) :
    (w.take 20 == MARKER) = false := by
  rw [beq_eq_false_iff_ne]
  intro hcontra
  have hlen : w.take 20 = MARKER := hcontra
  have : (w.take 20).getD k 0 = MARKER.getD k 0 := by rw [hlen]
  rw [List.getD_eq_getElem _ _ (by
      rw [List.length_take]
      have := congrArg List.length hlen
      rw [List.length_take, marker_length] at this
      omega),
    List.getElem_take] at this
  rw [← List.getD_eq_getElem _ _ hkw] at this
  exact marker_getD_ne_10 k hk (by rw [← this, hbyte])

theorem take_ne_marker_of_short {w : List Nat} (hlen : w.length < 20) :
    (w.take 20 == MARKER) = false := by
  rw [beq_eq_false_iff_ne]
  intro hcontra
  have := congrArg List.length hcontra
  rw [List.length_take, marker_length] at this
  omega

theorem getD_append_left {u v : List Nat} {k : Nat} (hk : k < u.length) :
    (u ++ v).getD k 0 = u.getD k 0 := by
  rw [List.getD_eq_getElem _ _ (by rw [List.length_append]; omega),
    List.getD_eq_getElem _ _ hk]
  exact List.getElem_append_left hk

theorem getD_getLast {u : List Nat} (hu : u ≠ []) :
    u.getD (u.length - 1) 0 = u.getLast hu := by
  rw [List.getLast_eq_getElem]
  exact List.getD_eq_getElem _ _ (by
    cases u with
    | nil => exact absurd rfl hu
    | cons a l => simp)

/-- Marker occurrences split across a newline-terminated left part: no
occurrence spans the boundary. -/
theorem countOccur_marker_append {u v : List Nat}
    (hu : u = [] ∨ u.getLast? = some 10) :
    countOccur MARKER (u ++ v) =
      countOccur MARKER u + countOccur MARKER v := by
  induction u with
  | nil => rw [List.nil_append, countOccur_marker_nil, Nat.zero_add]
  | cons c u' ih =>
    rcases hu with h | h
    · exact absurd h (List.cons_ne_nil c u')
    rw [List.cons_append, countOccur_cons, countOccur_cons]
    cases u' with
    | nil =>
      have hc : c = 10 := by
        simp [List.getLast?] at h
        exact h
      subst hc
      simp only [List.nil_append]
      have h1 : (((10 : Nat) :: v).take MARKER.length == MARKER) = false := by
        rw [marker_length]
        apply take_ne_marker_of_inner_newline (k := 0) (by omega) (by simp)
        simp
      have h2 : (([10] : List Nat).take MARKER.length == MARKER) = false := by
        decide
      simp only [h1, h2, countOccur_marker_nil, Bool.false_eq_true, if_false]
    | cons d u'' =>
      simp only [List.cons_append]
      have h' : (d :: u'').getLast? = some 10 := by
        rwa [List.getLast?_cons_cons] at h
      have ihh := ih (Or.inr h')
      have hlen3 : (c :: d :: u'').length = u''.length + 2 := by simp
      have hheads : ((c :: d :: (u'' ++ v)).take MARKER.length == MARKER) =
          ((c :: d :: u'').take MARKER.length == MARKER) := by
        have hform : (c :: d :: (u'' ++ v)) = (c :: d :: u'') ++ v := by simp
        rw [marker_length, hform]
        by_cases hl : 20 ≤ (c :: d :: u'').length
        · rw [List.take_append_of_le_length hl]
        · have hne : (c :: d :: u'') ≠ [] := List.cons_ne_nil _ _
          have hlast10 : (c :: d :: u'').getD ((c :: d :: u'').length - 1) 0
              = 10 := by
            rw [getD_getLast hne]
            rw [List.getLast?_eq_getLast _ hne] at h
            exact Option.some.inj h
          rw [hlen3] at hl
          have hL : (((c :: d :: u'') ++ v).take 20 == MARKER) = false := by
            apply take_ne_marker_of_inner_newline
              (k := (c :: d :: u'').length - 1)
              (by rw [hlen3]; omega)
              (by rw [List.length_append, hlen3]; omega)
            rw [getD_append_left (by rw [hlen3]; omega)]
            exact hlast10
          have hR : ((c :: d :: u'').take 20 == MARKER) = false :=
            take_ne_marker_of_short (by rw [hlen3]; omega)
          rw [hL, hR]
      have ihh' : countOccur MARKER (d :: (u'' ++ v)) =
          countOccur MARKER (d :: u'') + countOccur MARKER v := by
        simpa using ihh
      simp only [hheads, ihh']
      omega

theorem countOccur_marker_drop_le (k : Nat) (l : List Nat) :
    countOccur MARKER (l.drop k) ≤ countOccur MARKER l := by
  induction l generalizing k with
  | nil => simp
  | cons c rest ih =>
    cases k with
    | zero => simp
    | succ k' =>
      rw [List.drop_succ_cons, countOccur_cons]
      calc countOccur MARKER (rest.drop k') ≤ countOccur MARKER rest := ih k'
        _ ≤ _ := by omega

theorem countOccur_marker_take_le (k : Nat) (l : List Nat) :
    countOccur MARKER (l.take k) ≤ countOccur MARKER l := by
  induction l generalizing k with
  | nil => simp
  | cons c rest ih =>
    cases k with
    | zero => simp [countOccur_marker_nil]
    | succ k' =>
      rw [List.take_succ_cons, countOccur_cons, countOccur_cons]
      have hhead : ((c :: rest.take k').take MARKER.length == MARKER) = true →
          ((c :: rest).take MARKER.length == MARKER) = true := by
        rw [marker_length]
        by_cases h20 : 20 ≤ k' + 1
        · have : (c :: rest.take k').take 20 = (c :: rest).take 20 := by
            rw [show (c :: rest.take k') = (c :: rest).take (k' + 1) by
              rw [List.take_succ_cons], List.take_take]
            congr 1
            omega
          rw [this]
          exact id
        · intro hcontra
          have := take_ne_marker_of_short (w := c :: rest.take k') (by
            simp only [List.length_cons, List.length_take]
            omega)
          rw [this] at hcontra
          exact absurd hcontra (by simp)
      have := ih k'
      by_cases hA : ((c :: rest.take k').take MARKER.length == MARKER) = true
      · rw [hA, hhead hA]
        simp only [if_true]
        omega
      · rw [Bool.not_eq_true] at hA
        rw [hA]
        simp only [Bool.false_eq_true, if_false]
        split <;> omega

theorem overwriteAt_at_append (u y data : List Nat) :
    overwriteAt (u ++ y) u.length data = u ++ data ++ y.drop data.length := by
  unfold overwriteAt
  rw [List.take_left, List.drop_append]

theorem overwriteAt_zero (F data : List Nat) :
    overwriteAt F 0 data = data ++ F.drop data.length := by
  unfold overwriteAt
  simp

theorem formatLine_getLast (raw : List Nat) :
    (formatLine raw).getLast? = some 10 := by
  rw [formatLine]
  split
  · next h => exact h
  · next h => rw [List.getLast?_concat]

theorem formatLine_ne_nil (raw : List Nat) : formatLine raw ≠ [] := by
  rw [formatLine]
  split
  · next h => intro hc; rw [hc] at h; simp at h
  · next h => simp

theorem blanks_getLast : BLANKS.getLast? = some 10 := by decide

theorem blanks_length : BLANKS.length = 20 := by decide

theorem countOccur_marker_blanks : countOccur MARKER BLANKS = 0 := by decide

/-- Data invariant of the circular log reachable from a fresh
initialisation: the file fits the cap; when overwriting, the file splits as
`u ++ MARKER ++ w` with the write position at `|u|`, `u` newline-terminated
(or empty) and marker-free on both sides; when not overwriting, the file is
marker-free, the position is inside the file, at a newline boundary, and
within the cap. -/
def LogInv (st : LogState) : Prop :=
  st.file.length ≤ st.max_bytes ∧
  ((st.overwriting = true ∧ ∃ u w, st.file = u ++ MARKER ++ w ∧
      st.write_pos = u.length ∧ (u = [] ∨ u.getLast? = some 10) ∧
      countOccur MARKER u = 0 ∧ countOccur MARKER w = 0 ∧
      u.length + 20 ≤ st.max_bytes) ∨
   (st.overwriting = false ∧ countOccur MARKER st.file = 0 ∧
      st.write_pos ≤ st.file.length ∧
      (st.write_pos = 0 ∨ st.file.getD (st.write_pos - 1) 0 = 10) ∧
      st.write_pos ≤ st.max_bytes))

theorem getLast?_take_of_byte {F : List Nat} {P : Nat} (h0 : 0 < P)
    (hP : P ≤ F.length) (hb : F.getD (P - 1) 0 = 10) :
    (F.take P).getLast? = some 10 := by
  have hne : F.take P ≠ [] := by
    intro hc
    have := congrArg List.length hc
    rw [List.length_take] at this
    simp only [List.length_nil] at this
    omega
  rw [List.getLast?_eq_getLast _ hne, ← getD_getLast hne]
  congr 1
  rw [List.length_take]
  have hmin : min P F.length = P := by omega
  rw [hmin]
  rw [List.getD_eq_getElem _ _ (by rw [List.length_take]; omega),
    List.getElem_take, ← List.getD_eq_getElem _ _ (by omega)]
  exact hb

theorem log_write_inv (st : LogState) (raw : List Nat)
    (hcap : 256 ≤ st.max_bytes) (hinv : LogInv st)
    (hclean : countOccur MARKER (formatLine raw) = 0)
    (hfit : (formatLine raw).length ≤ st.max_bytes - MARKER_LEN) :
    LogInv (log_write st raw) ∧
      (log_write st raw).max_bytes = st.max_bytes := by
  obtain ⟨hlen, hcases⟩ := hinv
  have hL10 := formatLine_getLast raw
  have hLne := formatLine_ne_nil raw
  have hLpos : 0 < (formatLine raw).length := List.length_pos.mpr hLne
  have hfit' : (formatLine raw).length + 20 ≤ st.max_bytes := by
    rw [MARKER_LEN] at hfit
    omega
  rw [log_write]
  simp only [List.take_of_length_le hfit]
  rcases hcases with ⟨hov, u, w, hfile, hpos, hu10, hcu, hcw, hu20⟩ |
    ⟨hov, hcf, hple, hnl, hpm⟩
  · have hFlen : st.file.length = u.length + 20 + w.length := by
      rw [hfile]
      simp only [List.length_append, marker_length]
    simp only [hov, eq_self_iff_true, if_true, true_and]
    by_cases hwrap :
        st.write_pos + ((formatLine raw).length + MARKER_LEN) > st.max_bytes
    · rw [if_pos hwrap]
      rw [if_pos (show st.write_pos + MARKER_LEN ≤ st.max_bytes by
        rw [MARKER_LEN, hpos]; omega)]
      have hblank : overwriteAt st.file st.write_pos BLANKS =
          u ++ BLANKS ++ w := by
        rw [hfile, List.append_assoc, hpos, overwriteAt_at_append,
          blanks_length, show (20 : Nat) = MARKER.length from marker_length.symm,
          List.drop_left]
      rw [raw_write, if_neg (by simpa using hLne)]
      simp only [hblank]
      rw [write_marker]
      simp only [if_true]
      rw [Nat.zero_add, overwriteAt_zero, overwriteAt_at_append]
      have hdrops : ((u ++ BLANKS ++ w).drop (formatLine raw).length).drop
          MARKER.length =
          (u ++ BLANKS ++ w).drop (MARKER.length + (formatLine raw).length) := by
        rw [List.drop_drop, Nat.add_comm]
      rw [hdrops]
      have hcF1 : countOccur MARKER (u ++ BLANKS ++ w) = 0 := by
        rw [List.append_assoc, countOccur_marker_append hu10,
          countOccur_marker_append (Or.inr blanks_getLast), hcu, hcw,
          countOccur_marker_blanks]
      constructor
      · constructor
        · dsimp only
          simp only [List.length_append, List.length_drop, marker_length,
            blanks_length]
          omega
        · refine Or.inl ⟨rfl, formatLine raw,
            (u ++ BLANKS ++ w).drop (MARKER.length + (formatLine raw).length),
            rfl, rfl, Or.inr hL10, hclean, ?_,
            show (formatLine raw).length + 20 ≤ st.max_bytes by omega⟩
          have := countOccur_marker_drop_le
            (MARKER.length + (formatLine raw).length) (u ++ BLANKS ++ w)
          omega
      · trivial
    · rw [if_neg hwrap]
      rw [raw_write, if_neg (by simpa using hLne)]
      have hwrite : overwriteAt st.file st.write_pos (formatLine raw) =
          u ++ formatLine raw ++ (MARKER ++ w).drop (formatLine raw).length := by
        rw [hfile, List.append_assoc, hpos, overwriteAt_at_append]
      simp only [hwrite]
      rw [write_marker]
      simp only [hov, eq_self_iff_true, if_true]
      have hposmk : st.write_pos + (formatLine raw).length =
          (u ++ formatLine raw).length := by
        rw [List.length_append, hpos]
      rw [hposmk, overwriteAt_at_append]
      have hdrops : (((MARKER ++ w).drop (formatLine raw).length).drop
          MARKER.length) = w.drop (formatLine raw).length := by
        rw [List.drop_drop, Nat.add_comm, List.drop_append]
      rw [hdrops]
      have hulast : (u ++ formatLine raw).getLast? = some 10 := by
        rw [List.getLast?_append_of_ne_nil u hLne]
        exact hL10
      refine ⟨⟨?_, Or.inl ⟨rfl, u ++ formatLine raw,
        w.drop (formatLine raw).length, rfl, rfl, Or.inr hulast, ?_, ?_, ?_⟩⟩,
        trivial⟩
      · dsimp only
        simp only [List.length_append, List.length_drop, marker_length]
        rw [MARKER_LEN] at hwrap
        omega
      · rw [countOccur_marker_append hu10, hcu, hclean]
      · have := countOccur_marker_drop_le (formatLine raw).length w
        omega
      · simp only [List.length_append]
        rw [MARKER_LEN] at hwrap
        omega
  · have hne0 : ¬ (formatLine raw).length = 0 := by
      simpa using hLne
    simp only [hov, Bool.false_eq_true, if_false, false_and, Nat.add_zero]
    by_cases hwrap : st.write_pos + (formatLine raw).length > st.max_bytes
    · rw [if_pos hwrap]
      rw [raw_write, if_neg hne0]
      rw [write_marker]
      simp only [if_true]
      rw [Nat.zero_add, overwriteAt_zero, overwriteAt_at_append]
      have hdrops : ((st.file.drop (formatLine raw).length).drop
          MARKER.length) =
          st.file.drop (MARKER.length + (formatLine raw).length) := by
        rw [List.drop_drop, Nat.add_comm]
      rw [hdrops]
      refine ⟨⟨?_, Or.inl ⟨rfl, formatLine raw,
        st.file.drop (MARKER.length + (formatLine raw).length), rfl, rfl,
        Or.inr hL10, hclean, ?_,
        show (formatLine raw).length + 20 ≤ st.max_bytes by omega⟩⟩, trivial⟩
      · dsimp only
        simp only [List.length_append, List.length_drop, marker_length]
        omega
      · have := countOccur_marker_drop_le
          (MARKER.length + (formatLine raw).length) st.file
        omega
    · rw [if_neg hwrap]
      rw [raw_write, if_neg hne0]
      rw [write_marker]
      simp only [hov, Bool.false_eq_true, if_false]
      rw [overwriteAt]
      have htake10 : st.file.take st.write_pos = [] ∨
          (st.file.take st.write_pos).getLast? = some 10 := by
        rcases hnl with h0 | hbyte
        · left; rw [h0]; rfl
        · rcases Nat.eq_zero_or_pos st.write_pos with h0 | hp
          · left; rw [h0]; rfl
          · right; exact getLast?_take_of_byte hp hple hbyte
      have htklen : (st.file.take st.write_pos).length = st.write_pos := by
        rw [List.length_take]
        omega
      refine ⟨⟨?_, Or.inr ⟨rfl, ?_, ?_, ?_, by dsimp only; omega⟩⟩, trivial⟩
      · dsimp only
        simp only [List.length_append, List.length_drop, List.length_take]
        omega
      · dsimp only
        rw [List.append_assoc, countOccur_marker_append htake10,
          countOccur_marker_append (Or.inr hL10)]
        have h1 := countOccur_marker_take_le st.write_pos st.file
        have h2 := countOccur_marker_drop_le
          (st.write_pos + (formatLine raw).length) st.file
        omega
      · dsimp only
        simp only [List.length_append, List.length_drop, htklen]
        omega
      · right
        dsimp only
        have hlast : ((st.file.take st.write_pos ++ formatLine raw)).getLast? =
            some 10 := by
          rw [List.getLast?_append_of_ne_nil _ hLne]
          exact hL10
        have hAne : st.file.take st.write_pos ++ formatLine raw ≠ [] := by
          simp [hLne]
        have hAlen : (st.file.take st.write_pos ++ formatLine raw).length =
            st.write_pos + (formatLine raw).length := by
          rw [List.length_append, htklen]
        rw [getD_append_left (by rw [hAlen]; omega)]
        rw [show st.write_pos + (formatLine raw).length - 1 =
            (st.file.take st.write_pos ++ formatLine raw).length - 1 by
          rw [hAlen]]
        rw [getD_getLast hAne]
        rw [List.getLast?_eq_getLast _ hAne] at hlast
        exact Option.some.inj hlast

theorem marker_getLast : MARKER.getLast? = some 10 := by decide

theorem marker_self_count : countOccur MARKER MARKER = 1 := by decide

theorem logInv_count (st : LogState) (hinv : LogInv st) :
    countOccur MARKER st.file = if st.overwriting then 1 else 0 := by
  obtain ⟨-, hcases⟩ := hinv
  rcases hcases with ⟨hov, u, w, hfile, -, hu10, hcu, hcw, -⟩ |
    ⟨hov, hcf, -, -, -⟩
  · simp only [hov, if_true]
    rw [hfile, List.append_assoc, countOccur_marker_append hu10,
      countOccur_marker_append (Or.inr marker_getLast), hcu, hcw,
      marker_self_count]
  · simp only [hov, Bool.false_eq_true, if_false]
    exact hcf

theorem logInv_init (cap : Nat) : LogInv (logInit cap) := by
  refine ⟨by simp [logInit], Or.inr ⟨rfl, countOccur_marker_nil, ?_, Or.inl rfl,
    ?_⟩⟩ <;> simp [logInit]

/-- All writes of a run, folded over a logger state. -/
def log_run (cap : Nat) (raws : List (List Nat)) : LogState :=
  raws.foldl log_write (logInit cap)

theorem log_write_foldl_inv (raws : List (List Nat)) (st : LogState)
    (hcap : 256 ≤ st.max_bytes) (hinv : LogInv st)
    (hlines : ∀ raw ∈ raws, countOccur MARKER (formatLine raw) = 0 ∧
      (formatLine raw).length ≤ st.max_bytes - MARKER_LEN) :
    LogInv (raws.foldl log_write st) ∧
      (raws.foldl log_write st).max_bytes = st.max_bytes := by
  induction raws generalizing st with
  | nil => exact ⟨hinv, rfl⟩
  | cons raw rest ih =>
    obtain ⟨h1, h2⟩ := hlines raw (List.mem_cons_self _ _)
    obtain ⟨hinv2, hmb⟩ := log_write_inv st raw hcap hinv h1 h2
    have hcap2 : 256 ≤ (log_write st raw).max_bytes := by
      rw [hmb]; exact hcap
    have hlines2 : ∀ r ∈ rest, countOccur MARKER (formatLine r) = 0 ∧
        (formatLine r).length ≤ (log_write st raw).max_bytes - MARKER_LEN := by
      intro r hr
      rw [hmb]
      exact hlines r (List.mem_cons_of_mem _ hr)
    obtain ⟨ha, hb⟩ := ih (log_write st raw) hcap2 hinv2 hlines2
    rw [List.foldl_cons]
    exact ⟨ha, hb.trans hmb⟩

/-- C7 (amended): after any run of `log_write` calls on a logger initialised
with capacity `cap ≥ 256`, provided every formatted line is free of the
20-byte overwrite marker and fits in `cap - 20` bytes, the file size stays
at most `cap` and the file holds exactly one marker occurrence iff the
writer has wrapped (the `overwriting` flag is set); without the marker-free
proviso the iff fails, since logging a line that itself spells the marker
plants an occurrence before any wrap. -/
theorem log_marker_invariant (cap : Nat) (raws : List (List Nat))
    (hcap : 256 ≤ cap)
    (hlines : ∀ raw ∈ raws, countOccur MARKER (formatLine raw) = 0 ∧
      (formatLine raw).length ≤ cap - MARKER_LEN) :
    (log_run cap raws).file.length ≤ cap ∧
      (countOccur MARKER (log_run cap raws).file = 1 ↔
        (log_run cap raws).overwriting = true) := by
  obtain ⟨hinv, hmb⟩ := log_write_foldl_inv raws (logInit cap) hcap
    (logInv_init cap) hlines
  have hmb2 : (log_run cap raws).max_bytes = cap := hmb
  constructor
  · have := hinv.1
    rw [log_run] at hmb2 ⊢
    omega
  · rw [log_run, logInv_count _ hinv]
    cases ho : (raws.foldl log_write (logInit cap)).overwriting <;> simp [ho]

/-- Witness: one clean 6-byte line on a fresh 256-byte logger satisfies the
hypotheses and the conclusion of the invariant. -/
theorem log_marker_invariant_witness :
    (256 ≤ 256 ∧
      (∀ raw ∈ [byteStr "hello"], countOccur MARKER (formatLine raw) = 0 ∧
        (formatLine raw).length ≤ 256 - MARKER_LEN)) ∧
    ((log_run 256 [byteStr "hello"]).file.length ≤ 256 ∧
      (countOccur MARKER (log_run 256 [byteStr "hello"]).file = 1 ↔
        (log_run 256 [byteStr "hello"]).overwriting = true)) :=
  ⟨⟨by decide, by decide⟩,
    log_marker_invariant 256 [byteStr "hello"] (by decide) (by decide)⟩

/-- C7 as stated is false: logging a message whose bytes spell the overwrite
marker plants a marker occurrence in the file while `overwriting` is still
`false`, so before any wrap the file is not marker-free and the count-one
iff fails. -/
theorem log_marker_without_wrap :
    (log_write (logInit 256) (byteStr "---^-OVERWRITE-^---")).overwriting
        = false ∧
      countOccur MARKER
        (log_write (logInit 256) (byteStr "---^-OVERWRITE-^---")).file
        = 1 := by
  decide

end CircLog

namespace Queue

/-- `QUEUE_BUCKETS` (include/queue.h). -/
def QUEUE_BUCKETS : Nat := 64

/-- `QUEUE_BUCKET_MASK` (include/queue.h). -/
def QUEUE_BUCKET_MASK : Nat := 63

/-- `round_up_pow2` (src/queue.c:31-45): raise to at least 4, subtract one,
smear the high bit rightwards with five or-shifts, add one back.  The C
argument is a 31-bit non-negative `int`; the embedding uses `Nat` on that
range (the or/shift steps are exact there and the `v++` cannot overflow for
`v ≤ 2^30`). -/
def round_up_pow2 (v : Nat) : Nat :=
  let v1 := if v < 4 then 4 else v
  let m0 := v1 - 1
  let m1 := m0 ||| (m0 >>> 1)
  let m2 := m1 ||| (m1 >>> 2)
  let m3 := m2 ||| (m2 >>> 4)
  let m4 := m3 ||| (m3 >>> 8)
  let m5 := m4 ||| (m4 >>> 16)
  m5 + 1

theorem and_two_pow_sub_one (x n : Nat) : x &&& (2 ^ n - 1) = x % 2 ^ n := by
  apply Nat.eq_of_testBit_eq
  intro i
  rw [Nat.testBit_and, Nat.testBit_mod_two_pow, Nat.testBit_two_pow_sub_one,
    Bool.and_comm]

theorem and_63 (x : Nat) : x &&& 63 = x % 64 := by
  have h := and_two_pow_sub_one x 6
  norm_num at h
  exact h

theorem smear_window (x m W : Nat)
    (hx : ∀ i, x.testBit i = true ↔ ∃ d, d < W ∧ m.testBit (i + d) = true) :
    ∀ i, (x ||| (x >>> W)).testBit i = true ↔
      ∃ d, d < W + W ∧ m.testBit (i + d) = true := by
  intro i
  rw [Nat.testBit_or, Nat.testBit_shiftRight, Bool.or_eq_true, hx, hx]
  constructor
  · rintro (⟨d, hd, hb⟩ | ⟨d, hd, hb⟩)
    · exact ⟨d, by omega, hb⟩
    · exact ⟨W + d, by omega, by rwa [show i + (W + d) = W + i + d by omega]⟩
  · rintro ⟨d, hd, hb⟩
    by_cases hdW : d < W
    · exact Or.inl ⟨d, hdW, hb⟩
    · exact Or.inr ⟨d - W, by omega, by
        rwa [show W + i + (d - W) = i + d by omega]⟩

theorem two_pow_le_of_testBit {m j : Nat} (h : m.testBit j = true) :
    2 ^ j ≤ m := by
  by_contra hlt
  rw [Nat.testBit_to_div_mod, Nat.div_eq_of_lt (by omega)] at h
  simp at h

theorem exists_testBit_ge {m i : Nat} (h : 2 ^ i ≤ m) :
    ∃ j, i ≤ j ∧ m.testBit j = true := by
  by_contra hc
  push_neg at hc
  have hz : m >>> i = 0 := by
    apply Nat.eq_of_testBit_eq
    intro k
    rw [Nat.testBit_shiftRight, Nat.zero_testBit]
    have hk := hc (i + k) (by omega)
    exact Bool.not_eq_true _ |>.mp hk
  rw [Nat.shiftRight_eq_div_pow] at hz
  have hdm := Nat.div_add_mod m (2 ^ i)
  rw [hz, Nat.mul_zero, Nat.zero_add] at hdm
  have := Nat.mod_lt m (show 0 < 2 ^ i from Nat.pos_pow_of_pos i (by omega))
  omega

theorem round_up_pow2_spec (v : Nat) (hv : v < 2 ^ 32) :
    (∃ k, round_up_pow2 v = 2 ^ k) ∧
    max v 4 ≤ round_up_pow2 v ∧
    (∀ k, max v 4 ≤ 2 ^ k → round_up_pow2 v ≤ 2 ^ k) := by
  have hif : (if v < 4 then 4 else v) = max v 4 := by
    split <;> omega
  have hmax : 4 ≤ max v 4 := by omega
  set m := max v 4 - 1 with hm
  have hmlt : m < 2 ^ 32 := by
    have : (4 : Nat) < 2 ^ 32 := by norm_num
    omega
  have h0 : ∀ i, m.testBit i = true ↔
      ∃ d, d < 1 ∧ m.testBit (i + d) = true := by
    intro i
    constructor
    · intro h
      exact ⟨0, by omega, by simpa using h⟩
    · rintro ⟨d, hd, hb⟩
      have : d = 0 := by omega
      subst this
      simpa using hb
  have h1 := smear_window m m 1 h0
  have h2 := smear_window _ m 2 h1
  have h4 := smear_window _ m 4 h2
  have h8 := smear_window _ m 8 h4
  have h16 := smear_window _ m 16 h8
  have hs5 : (((((m ||| m >>> 1) ||| (m ||| m >>> 1) >>> 2) |||
      ((m ||| m >>> 1) ||| (m ||| m >>> 1) >>> 2) >>> 4) |||
      (((m ||| m >>> 1) ||| (m ||| m >>> 1) >>> 2) |||
      ((m ||| m >>> 1) ||| (m ||| m >>> 1) >>> 2) >>> 4) >>> 8) |||
      ((((m ||| m >>> 1) ||| (m ||| m >>> 1) >>> 2) |||
      ((m ||| m >>> 1) ||| (m ||| m >>> 1) >>> 2) >>> 4) |||
      (((m ||| m >>> 1) ||| (m ||| m >>> 1) >>> 2) |||
      ((m ||| m >>> 1) ||| (m ||| m >>> 1) >>> 2) >>> 4) >>> 8) >>> 16)
      = 2 ^ m.size - 1 := by
    apply Nat.eq_of_testBit_eq
    intro i
    rw [Nat.testBit_two_pow_sub_one, Bool.eq_iff_iff, decide_eq_true_eq,
      h16 i]
    constructor
    · rintro ⟨d, hd, hb⟩
      have hle := two_pow_le_of_testBit hb
      have := Nat.lt_size.mpr hle
      omega
    · intro hi
      obtain ⟨j, hij, hbit⟩ := exists_testBit_ge (Nat.lt_size.mp hi)
      have hj32 : j < 32 := by
        have h2j := two_pow_le_of_testBit hbit
        have : 2 ^ j < 2 ^ 32 := by omega
        exact (Nat.pow_lt_pow_iff_right (by omega)).mp this
      exact ⟨j - i, by omega, by rwa [show i + (j - i) = j by omega]⟩
  have hval : round_up_pow2 v = 2 ^ m.size := by
    rw [round_up_pow2]
    simp only [hif, ← hm]
    rw [hs5]
    have : 0 < 2 ^ m.size := Nat.pos_pow_of_pos _ (by omega)
    omega
  refine ⟨⟨m.size, hval⟩, ?_, ?_⟩
  · rw [hval]
    have := Nat.lt_size_self m
    omega
  · intro k hk
    rw [hval]
    apply Nat.pow_le_pow_right (by omega)
    rw [Nat.size_le]
    omega

/-- A queue `Slot` (src/queue.c:12-16): destination chat and message bytes
(at most 1023 after the push-time truncation); the monotonic ingress
timestamp is not modelled. -/
structure Slot where
  chat_id : Int
  text : List Nat
deriving DecidableEq

/-- A per-user ring buffer `UserRing` (src/queue.c:19-28).  The slot array
is a function from index to slot (calloc-zeroed); `cap_mask` is kept as
`cap - 1` at use sites rather than stored. -/
structure UserRing where
  user_id : Int
  slots : Nat → Slot
  head : Nat
  tail : Nat
  count : Nat
  cap : Nat

/-- The global queue state `g_queue` (src/queue.c:48-56): 64 hash buckets
of ring chains, the pending total, the configured ring size, the shutdown
flag and the round-robin cursor.  The mutex/condvar are not modelled; pop
blocking is exposed as an explicit result. -/
@[ext]
structure QState where
  buckets : Nat → List UserRing
  total_pending : Nat
  ring_size : Nat
  shutdown : Bool
  rr_bucket : Nat

/-- `fmix64`, the MurmurHash3 finaliser inlined in `hash_user`
(src/queue.c:65-74), on 64-bit words. -/
def fmix64 (h0 : Nat) : Nat :=
  let h1 := (h0 ^^^ (h0 >>> 33)) % 2 ^ 64
  let h2 := (h1 * 0xff51afd7ed558ccd) % 2 ^ 64
  let h3 := (h2 ^^^ (h2 >>> 33)) % 2 ^ 64
  let h4 := (h3 * 0xc4ceb9fe1a85ec53) % 2 ^ 64
  (h4 ^^^ (h4 >>> 33)) % 2 ^ 64

/-- `hash_user` (src/queue.c:65-74): the user id cast to `uint64_t`
(two's complement), finalised and masked to a bucket index. -/
def hash_user (user_id : Int) : Nat :=
  fmix64 (user_id % (2 ^ 64 : Int)).toNat &&& QUEUE_BUCKET_MASK

/-- The calloc-zeroed ring built in `ring_get_or_create`
(src/queue.c:88-99). -/
def new_ring (user_id : Int) (ring_size : Nat) : UserRing :=
  { user_id := user_id
    slots := fun _ => { chat_id := 0, text := [] }
    head := 0
    tail := 0
    count := 0
    cap := round_up_pow2 ring_size }

/-- The hash-chain walk of `ring_get_or_create` (src/queue.c:80-86). -/
def findRing (chain : List UserRing) (user_id : Int) : Option UserRing :=
  chain.find? fun r => r.user_id == user_id

/-- `ring_get_or_create` (src/queue.c:77-104): return the existing ring or
prepend a fresh one to its bucket (allocation failure is not modelled). -/
def ring_get_or_create (st : QState) (user_id : Int) : UserRing × QState :=
  let idx := hash_user user_id
  match findRing (st.buckets idx) user_id with
  | some r => (r, st)
  | none =>
    let r := new_ring user_id st.ring_size
    (r, { st with buckets := fun j =>
            if j = idx then r :: st.buckets idx else st.buckets j })

/-- In-place mutation of the found ring, as replacement in its chain. -/
def setRing (chain : List UserRing) (r2 : UserRing) : List UserRing :=
  chain.map fun r => if r.user_id == r2.user_id then r2 else r

/-- `queue_push` (src/queue.c:182-215): find or create the ring, reject
when full, otherwise store the 1023-byte-truncated text at `tail`, advance
`tail` by the capacity mask and bump the counters. -/
def queue_push (st : QState) (user_id chat_id : Int) (text : List Nat) :
    Int × QState :=
  let rs := ring_get_or_create st user_id
  let r := rs.1
  let st1 := rs.2
  if r.cap ≤ r.count then (-1, st)
  else
    let r2 := { r with
      slots := fun i => if i = r.tail then
          { chat_id := chat_id, text := text.take 1023 } else r.slots i
      tail := (r.tail + 1) &&& (r.cap - 1)
      count := r.count + 1 }
    let idx := hash_user user_id
    (0, { st1 with
      buckets := fun j =>
        if j = idx then setRing (st1.buckets idx) r2 else st1.buckets j
      total_pending := st1.total_pending + 1 })

/-- The chain walk of `ring_pop_any` (src/queue.c:119-142): pop the head
slot of the first ring with pending work, advancing its head by the
capacity mask and unlinking it when drained. -/
def chain_pop : List UserRing → Option (Slot × Int × List UserRing)
  | [] => none
  | r :: rest =>
    if 0 < r.count then
      let s := r.slots r.head
      let cnt := r.count - 1
      let r2 := { r with head := (r.head + 1) &&& (r.cap - 1), count := cnt }
      some (s, r.user_id, if cnt = 0 then rest else r2 :: rest)
    else
      match chain_pop rest with
      | none => none
      | some (s, u, rest2) => some (s, u, r :: rest2)

/-- The bucket scan of `ring_pop_any` (src/queue.c:112-145): try buckets
`(rr_bucket + i) & 63` for `i = 0..63`; on a hit, commit the new chain,
decrement the total and move the cursor past the hit bucket. -/
def pop_scan (st : QState) : Nat → Nat → Option (Slot × Int × QState)
  | _, 0 => none
  | i, fuel + 1 =>
    let idx := (st.rr_bucket + i) &&& QUEUE_BUCKET_MASK
    match chain_pop (st.buckets idx) with
    | some (s, u, chain2) =>
      some (s, u, { st with
        buckets := fun j => if j = idx then chain2 else st.buckets j
        total_pending := st.total_pending - 1
        rr_bucket := (idx + 1) &&& QUEUE_BUCKET_MASK })
    | none => pop_scan st (i + 1) fuel

/-- `ring_pop_any` (src/queue.c:112-145). -/
def ring_pop_any (st : QState) : Option (Slot × Int × QState) :=
  pop_scan st 0 QUEUE_BUCKETS

/-- Outcome of one `queue_pop` call: a message, the `-1` sentinel, or the
condvar wait (`blocked`) taken when nothing is pending and no shutdown was
requested. -/
inductive PopResult where
  | msg (s : Slot) (user_id : Int)
  | sentinel
  | blocked
deriving DecidableEq

/-- `queue_pop` (src/queue.c:217-250): wait while empty and not shutting
down; return the sentinel when shutting down with nothing pending (or on
the spurious empty scan); otherwise pop some ring. -/
def queue_pop (st : QState) : PopResult × QState :=
  if st.total_pending = 0 ∧ st.shutdown = false then (.blocked, st)
  else if st.shutdown = true ∧ st.total_pending = 0 then (.sentinel, st)
  else
    match ring_pop_any st with
    | some (s, u, st2) => (.msg s u, st2)
    | none => (.sentinel, st)

/-- `queue_shutdown` (src/queue.c:252-258): set the flag (the broadcast
only wakes waiters). -/
def queue_shutdown (st : QState) : QState := { st with shutdown := true }

/-- `queue_init` (src/queue.c:147-160): zeroed state with
`ring_size = ring_size > 0 ? ring_size : 30`. -/
def queue_init (ring_size : Int) : QState :=
  { buckets := fun _ => []
    total_pending := 0
    ring_size := if 0 < ring_size then ring_size.toNat else 30
    shutdown := false
    rr_bucket := 0 }

/-- One external queue operation. -/
inductive QOp where
  | push (user_id chat_id : Int) (text : List Nat)
  | pop
  | shutdown

/-- Observable events of a run: a successful push (with the stored,
truncated text) and a delivered pop. -/
inductive QEvent where
  | pushed (user_id : Int) (text : List Nat)
  | popped (user_id : Int) (text : List Nat)
deriving DecidableEq

/-- Apply one operation, recording its events. -/
def stepOp (p : QState × List QEvent) (op : QOp) : QState × List QEvent :=
  match op with
  | .push uid chat text =>
    let r := queue_push p.1 uid chat text
    (r.2, p.2 ++ (if r.1 = 0 then [QEvent.pushed uid (text.take 1023)]
      else []))
  | .pop =>
    match queue_pop p.1 with
    | (.msg s u, st2) => (st2, p.2 ++ [QEvent.popped u s.text])
    | (_, st2) => (st2, p.2)
  | .shutdown => (queue_shutdown p.1, p.2)

/-- Run a sequence of operations from a fresh `queue_init`. -/
def runOps (ring_size : Int) (ops : List QOp) : QState × List QEvent :=
  ops.foldl stepOp (queue_init ring_size, [])

/-- Texts successfully pushed for user `u`, in order. -/
def pushedFor (u : Int) (evs : List QEvent) : List (List Nat) :=
  evs.filterMap fun e => match e with
    | .pushed v t => if v = u then some t else none
    | _ => none

/-- Texts delivered to user `u` by pops, in order. -/
def poppedFor (u : Int) (evs : List QEvent) : List (List Nat) :=
  evs.filterMap fun e => match e with
    | .popped v t => if v = u then some t else none
    | _ => none

/-- The ring currently holding user `u`, if any. -/
def ringFor (st : QState) (u : Int) : Option UserRing :=
  findRing (st.buckets (hash_user u)) u

/-- The queued texts of a ring, head first. -/
def ringMsgs (r : UserRing) : List (List Nat) :=
  (List.range r.count).map fun j => (r.slots ((r.head + j) % r.cap)).text

/-- The texts still pending for user `u`. -/
def pendingFor (u : Int) (st : QState) : List (List Nat) :=
  match ringFor st u with
  | some r => ringMsgs r
  | none => []

/-- Well-formedness of one ring stored in bucket `i`: it hashes to its
bucket, carries the configured capacity, keeps `head` in range, `tail` at
`head + count` modulo the capacity, and is non-empty (drained rings are
freed) and within capacity. -/
def RingWF (rs i : Nat) (r : UserRing) : Prop :=
  hash_user r.user_id = i ∧
  r.cap = round_up_pow2 rs ∧
  r.head < r.cap ∧
  r.tail = (r.head + r.count) % r.cap ∧
  0 < r.count ∧
  r.count ≤ r.cap

/-- Total pending messages of one hash chain. -/
def chainSum : List UserRing → Nat
  | [] => 0
  | r :: rest => r.count + chainSum rest

/-- Reachability invariant of the queue: the ring size is in the `int`
range, every stored ring is well formed, user ids are unique per chain and
`total_pending` counts all queued slots. -/
def QInv (st : QState) : Prop :=
  st.ring_size < 2 ^ 32 ∧
  (∀ i r, r ∈ st.buckets i → RingWF st.ring_size i r) ∧
  (∀ i, (st.buckets i).Pairwise fun a b => a.user_id ≠ b.user_id) ∧
  st.total_pending =
    ((List.range QUEUE_BUCKETS).map fun i => chainSum (st.buckets i)).sum

theorem hash_user_lt (u : Int) : hash_user u < 64 := by
  rw [hash_user, QUEUE_BUCKET_MASK, and_63]
  exact Nat.mod_lt _ (by omega)

theorem cap_pos {rs : Nat} (h : rs < 2 ^ 32) :
    4 ≤ round_up_pow2 rs ∧ ∃ k, round_up_pow2 rs = 2 ^ k := by
  obtain ⟨hpow, hge, -⟩ := round_up_pow2_spec rs h
  exact ⟨by omega, hpow⟩

theorem buckets_hi {st : QState} (hinv : QInv st) :
    ∀ i, 64 ≤ i → st.buckets i = [] := by
  intro i hi
  rw [List.eq_nil_iff_forall_not_mem]
  intro r hr
  have hwf := hinv.2.1 i r hr
  have h1 := hwf.1
  have := hash_user_lt r.user_id
  omega

theorem findRing_some {chain : List UserRing} {u : Int} {r : UserRing}
    (h : findRing chain u = some r) :
    r.user_id = u ∧ ∃ pre post, chain = pre ++ r :: post ∧
      ∀ x ∈ pre, x.user_id ≠ u := by
  induction chain with
  | nil => simp [findRing] at h
  | cons a rest ih =>
    by_cases ha : a.user_id = u
    · rw [findRing, List.find?_cons_of_pos _ (by simp [ha])] at h
      obtain rfl := Option.some.inj h
      exact ⟨ha, [], rest, rfl, by simp⟩
    · rw [findRing, List.find?_cons_of_neg _ (by simp [ha])] at h
      obtain ⟨hru, pre, post, hch, hpre⟩ := ih h
      refine ⟨hru, a :: pre, post, by rw [List.cons_append, hch], ?_⟩
      intro x hx
      rcases List.mem_cons.mp hx with rfl | hx2
      · exact ha
      · exact hpre x hx2

theorem findRing_none {chain : List UserRing} {u : Int}
    (h : findRing chain u = none) : ∀ x ∈ chain, x.user_id ≠ u := by
  intro x hx
  have := List.find?_eq_none.mp h x hx
  simpa using this

theorem setRing_eq {pre post : List UserRing} {r r2 : UserRing}
    (hpre : ∀ x ∈ pre, x.user_id ≠ r2.user_id)
    (hpost : ∀ x ∈ post, x.user_id ≠ r2.user_id)
    (hr : r.user_id = r2.user_id) :
    setRing (pre ++ r :: post) r2 = pre ++ r2 :: post := by
  rw [setRing, List.map_append, List.map_cons]
  have h1 : pre.map (fun x => if x.user_id == r2.user_id then r2 else x)
      = pre.map id := by
    apply List.map_congr_left
    intro x hx
    rw [if_neg (by simp [hpre x hx])]
    rfl
  have h2 : post.map (fun x => if x.user_id == r2.user_id then r2 else x)
      = post.map id := by
    apply List.map_congr_left
    intro x hx
    rw [if_neg (by simp [hpost x hx])]
    rfl
  rw [h1, h2, List.map_id, List.map_id, if_pos (by simp [hr])]

theorem findRing_append {pre post : List UserRing} {r : UserRing} {u : Int}
    (hpre : ∀ x ∈ pre, x.user_id ≠ u) (hr : r.user_id = u) :
    findRing (pre ++ r :: post) u = some r := by
  induction pre with
  | nil =>
    rw [List.nil_append, findRing, List.find?_cons_of_pos _ (by simp [hr])]
  | cons a rest ih =>
    rw [List.cons_append, findRing,
      List.find?_cons_of_neg _ (by simp [hpre a (by simp)])]
    exact ih fun x hx => hpre x (List.mem_cons_of_mem _ hx)

theorem findRing_congr {pre post : List UserRing} {r r2 : UserRing} {v : Int}
    (hr : r.user_id = r2.user_id) (hv : v ≠ r.user_id) :
    findRing (pre ++ r2 :: post) v = findRing (pre ++ r :: post) v := by
  induction pre with
  | nil =>
    rw [List.nil_append, List.nil_append, findRing, findRing,
      List.find?_cons_of_neg _ (by simp [hr]; omega),
      List.find?_cons_of_neg _ (by simp; omega)]
  | cons a rest ih =>
    rw [List.cons_append, List.cons_append, findRing, findRing]
    by_cases ha : a.user_id = v
    · rw [List.find?_cons_of_pos _ (by simp [ha]),
        List.find?_cons_of_pos _ (by simp [ha])]
    · rw [List.find?_cons_of_neg _ (by simp [ha]),
        List.find?_cons_of_neg _ (by simp [ha])]
      exact ih

theorem chainSum_append (l1 l2 : List UserRing) :
    chainSum (l1 ++ l2) = chainSum l1 + chainSum l2 := by
  induction l1 with
  | nil => simp [chainSum]
  | cons a rest ih =>
    rw [List.cons_append, chainSum, chainSum, ih]
    omega

theorem range_sum_update (f : Nat → Nat) (i0 v n : Nat) (h : i0 < n) :
    ((List.range n).map fun i => if i = i0 then v else f i).sum + f i0 =
      ((List.range n).map f).sum + v := by
  induction n with
  | zero => omega
  | succ n ih =>
    rw [List.range_succ, List.map_append, List.map_append, List.sum_append,
      List.sum_append]
    by_cases hn : i0 = n
    · subst hn
      have heq : ((List.range i0).map fun i => if i = i0 then v else f i) =
          (List.range i0).map f := by
        apply List.map_congr_left
        intro i hi
        rw [List.mem_range] at hi
        rw [if_neg (by omega)]
      rw [heq]
      simp
      omega
    · have h2 : i0 < n := by omega
      have h3 := ih h2
      simp only [List.map_cons, List.map_nil, List.sum_cons, List.sum_nil,
        if_neg (show ¬n = i0 by omega)]
      omega

theorem range_sum_ge (f : Nat → Nat) (n i : Nat) (h : i < n) :
    f i ≤ ((List.range n).map f).sum :=
  List.single_le_sum (fun x _ => Nat.zero_le x) _
    (List.mem_map_of_mem f (List.mem_range.mpr h))

theorem pushedFor_append_pushed (u : Int) (evs : List QEvent)
    (t : List Nat) :
    pushedFor u (evs ++ [QEvent.pushed u t]) = pushedFor u evs ++ [t] := by
  rw [pushedFor, List.filterMap_append, pushedFor]
  simp

theorem pushedFor_append_other (u v : Int) (evs : List QEvent)
    (t : List Nat) (hv : v ≠ u) :
    pushedFor u (evs ++ [QEvent.pushed v t]) = pushedFor u evs := by
  rw [pushedFor, List.filterMap_append, pushedFor]
  simp [hv]

theorem pushedFor_append_popped (u v : Int) (evs : List QEvent)
    (t : List Nat) :
    pushedFor u (evs ++ [QEvent.popped v t]) = pushedFor u evs := by
  rw [pushedFor, List.filterMap_append, pushedFor]
  simp

theorem poppedFor_append_popped (u : Int) (evs : List QEvent)
    (t : List Nat) :
    poppedFor u (evs ++ [QEvent.popped u t]) = poppedFor u evs ++ [t] := by
  rw [poppedFor, List.filterMap_append, poppedFor]
  simp

theorem poppedFor_append_other (u v : Int) (evs : List QEvent)
    (t : List Nat) (hv : v ≠ u) :
    poppedFor u (evs ++ [QEvent.popped v t]) = poppedFor u evs := by
  rw [poppedFor, List.filterMap_append, poppedFor]
  simp [hv]

theorem poppedFor_append_pushed (u v : Int) (evs : List QEvent)
    (t : List Nat) :
    poppedFor u (evs ++ [QEvent.pushed v t]) = poppedFor u evs := by
  rw [poppedFor, List.filterMap_append, poppedFor]
  simp

theorem ringMsgs_new (u : Int) (rs : Nat) : ringMsgs (new_ring u rs) = [] :=
  rfl

theorem ringMsgs_push (r : UserRing) (s : Slot)
    (hhead : r.head < r.cap) (htail : r.tail = (r.head + r.count) % r.cap)
    (hcnt : r.count < r.cap) (hpow : ∃ k, r.cap = 2 ^ k) :
    ringMsgs { r with
      slots := fun i => if i = r.tail then s else r.slots i
      tail := (r.tail + 1) &&& (r.cap - 1)
      count := r.count + 1 } = ringMsgs r ++ [s.text] := by
  rw [ringMsgs, ringMsgs]
  dsimp only
  rw [List.range_succ, List.map_append]
  congr 1
  · apply List.map_congr_left
    intro j hj
    rw [List.mem_range] at hj
    have hne : ¬(r.head + j) % r.cap = r.tail := by
      rw [htail]
      intro hc
      have hme : j ≡ r.count [MOD r.cap] :=
        Nat.ModEq.add_left_cancel' r.head hc
      rw [Nat.ModEq, Nat.mod_eq_of_lt (by omega),
        Nat.mod_eq_of_lt (by omega)] at hme
      omega
    rw [if_neg hne]
  · simp [htail]

theorem ringMsgs_pop (r : UserRing)
    (hhead : r.head < r.cap) (hcnt : 0 < r.count)
    (hpow : ∃ k, r.cap = 2 ^ k) :
    ringMsgs r = (r.slots r.head).text ::
      ringMsgs { r with head := (r.head + 1) &&& (r.cap - 1),
                        count := r.count - 1 } := by
  obtain ⟨k, hk⟩ := hpow
  have hmask : (r.head + 1) &&& (r.cap - 1) = (r.head + 1) % r.cap := by
    rw [hk, and_two_pow_sub_one]
  obtain ⟨c, hc⟩ : ∃ c, r.count = c + 1 := ⟨r.count - 1, by omega⟩
  rw [ringMsgs, ringMsgs]
  dsimp only
  rw [hc, hmask, show c + 1 - 1 = c from rfl]
  simp only [List.range_succ_eq_map, List.map_cons, List.map_map]
  congr 1
  · rw [Nat.add_zero, Nat.mod_eq_of_lt hhead]
  apply List.map_congr_left
  intro j hj
  simp only [Function.comp_apply]
  rw [Nat.mod_add_mod]
  rw [show r.head + Nat.succ j = r.head + 1 + j by omega]

theorem chain_pop_cons_pos (r : UserRing) (rest : List UserRing)
    (h : 0 < r.count) :
    chain_pop (r :: rest) = some (r.slots r.head, r.user_id,
      if r.count - 1 = 0 then rest
      else { r with head := (r.head + 1) &&& (r.cap - 1),
                    count := r.count - 1 } :: rest) := by
  rw [chain_pop, if_pos h]

theorem chain_pop_none {chain : List UserRing}
    (hpos : ∀ r ∈ chain, 0 < r.count) :
    chain_pop chain = none ↔ chain = [] := by
  cases chain with
  | nil => simp [chain_pop]
  | cons r rest =>
    rw [chain_pop_cons_pos r rest (hpos r (by simp))]
    simp

/-- The ring as mutated by a successful `queue_push` (src/queue.c:198-209):
slot stored at `tail`, `tail` advanced by the mask, `count` bumped. -/
def pushRing (r : UserRing) (chat_id : Int) (text : List Nat) : UserRing :=
  { r with
    slots := fun i => if i = r.tail then
        { chat_id := chat_id, text := text.take 1023 } else r.slots i
    tail := (r.tail + 1) &&& (r.cap - 1)
    count := r.count + 1 }

theorem queue_push_found_full {st : QState} {uid : Int} {r : UserRing}
    (hfind : findRing (st.buckets (hash_user uid)) uid = some r)
    (hfull : r.cap ≤ r.count) (chat : Int) (text : List Nat) :
    queue_push st uid chat text = (-1, st) := by
  rw [queue_push, ring_get_or_create]
  simp only [hfind]
  rw [if_pos hfull]

theorem queue_push_found_ok {st : QState} {uid : Int} {r : UserRing}
    (hfind : findRing (st.buckets (hash_user uid)) uid = some r)
    (hnotfull : r.count < r.cap) (chat : Int) (text : List Nat) :
    queue_push st uid chat text = (0, { st with
      buckets := fun j => if j = hash_user uid
        then setRing (st.buckets (hash_user uid)) (pushRing r chat text)
        else st.buckets j
      total_pending := st.total_pending + 1 }) := by
  rw [queue_push, ring_get_or_create]
  simp only [hfind]
  rw [if_neg (by omega)]
  rfl

theorem queue_push_create_ok {st : QState} {uid : Int}
    (hfind : findRing (st.buckets (hash_user uid)) uid = none)
    (hcap : 0 < round_up_pow2 st.ring_size) (chat : Int) (text : List Nat) :
    queue_push st uid chat text = (0, { st with
      buckets := fun j => if j = hash_user uid
        then pushRing (new_ring uid st.ring_size) chat text ::
          st.buckets (hash_user uid)
        else st.buckets j
      total_pending := st.total_pending + 1 }) := by
  rw [queue_push, ring_get_or_create]
  simp only [hfind]
  rw [if_neg (by
    show ¬((new_ring uid st.ring_size).cap ≤ (new_ring uid st.ring_size).count)
    rw [new_ring]
    dsimp only
    omega)]
  have hnomatch := findRing_none hfind
  refine Prod.ext rfl ?_
  ext1
  case buckets =>
    funext j
    dsimp only
    by_cases hj : j = hash_user uid
    · subst hj
      simp only [eq_self_iff_true, if_true]
      have hset : setRing (new_ring uid st.ring_size :: st.buckets
          (hash_user uid)) (pushRing (new_ring uid st.ring_size) chat text)
          = pushRing (new_ring uid st.ring_size) chat text ::
            st.buckets (hash_user uid) := by
        have := @setRing_eq [] (st.buckets (hash_user uid))
          (new_ring uid st.ring_size)
          (pushRing (new_ring uid st.ring_size) chat text)
          (by simp) ?_ rfl
        · simpa using this
        · intro x hx
          show x.user_id ≠ (pushRing (new_ring uid st.ring_size)
            chat text).user_id
          exact hnomatch x hx
      exact hset
    · rw [if_neg hj, if_neg hj, if_neg hj]
  case total_pending => rfl
  case ring_size => rfl
  case shutdown => rfl
  case rr_bucket => rfl

theorem pairwise_replace {pre post : List UserRing} {r r2 : UserRing}
    (h : (pre ++ r :: post).Pairwise fun a b => a.user_id ≠ b.user_id)
    (he : r2.user_id = r.user_id) :
    (pre ++ r2 :: post).Pairwise fun a b => a.user_id ≠ b.user_id := by
  rw [List.pairwise_append, List.pairwise_cons] at h ⊢
  obtain ⟨h1, ⟨h2, h3⟩, h4⟩ := h
  refine ⟨h1, ⟨fun a ha => by rw [he]; exact h2 a ha, h3⟩, ?_⟩
  intro a ha b hb
  rcases List.mem_cons.mp hb with rfl | hb2
  · rw [he]
    exact h4 a ha r (by simp)
  · exact h4 a ha b (List.mem_cons_of_mem _ hb2)

theorem ringWF_pushRing {rs i : Nat} {r : UserRing} (chat : Int)
    (t : List Nat)
    (hh : hash_user r.user_id = i) (hc : r.cap = round_up_pow2 rs)
    (hhead : r.head < r.cap) (htail : r.tail = (r.head + r.count) % r.cap)
    (hcnt : r.count < r.cap) (hpow : ∃ k, r.cap = 2 ^ k) :
    RingWF rs i (pushRing r chat t) := by
  obtain ⟨k, hk⟩ := hpow
  unfold RingWF pushRing
  dsimp only
  refine ⟨hh, hc, hhead, ?_, by omega, by omega⟩
  rw [hk, and_two_pow_sub_one, ← hk, htail, Nat.mod_add_mod,
    show r.head + r.count + 1 = r.head + (r.count + 1) by omega]

theorem ringMsgs_pushRing (r : UserRing) (chat : Int) (t : List Nat)
    (hhead : r.head < r.cap) (htail : r.tail = (r.head + r.count) % r.cap)
    (hcnt : r.count < r.cap) (hpow : ∃ k, r.cap = 2 ^ k) :
    ringMsgs (pushRing r chat t) = ringMsgs r ++ [t.take 1023] :=
  ringMsgs_push r { chat_id := chat, text := t.take 1023 } hhead htail hcnt
    hpow

theorem pendingFor_buckets {st st2 : QState} {v : Int}
    (h : st2.buckets (hash_user v) = st.buckets (hash_user v)) :
    pendingFor v st2 = pendingFor v st := by
  rw [pendingFor, pendingFor, ringFor, ringFor, h]

theorem qinv_update {st : QState} (hinv : QInv st) {i0 : Nat}
    {C : List UserRing} (hi0 : i0 < 64)
    (hWF : ∀ r ∈ C, RingWF st.ring_size i0 r)
    (hPW : C.Pairwise fun a b => a.user_id ≠ b.user_id)
    (hS : chainSum C = chainSum (st.buckets i0) + 1) :
    QInv { st with
      buckets := fun j => if j = i0 then C else st.buckets j
      total_pending := st.total_pending + 1 } := by
  obtain ⟨hrs, hwfall, hpair, hsum⟩ := hinv
  refine ⟨hrs, ?_, ?_, ?_⟩
  · intro i r hr
    dsimp only at hr ⊢
    by_cases hi : i = i0
    · subst hi
      rw [if_pos rfl] at hr
      exact hWF r hr
    · rw [if_neg hi] at hr
      exact hwfall i r hr
  · intro i
    dsimp only
    by_cases hi : i = i0
    · subst hi
      rw [if_pos rfl]
      exact hPW
    · rw [if_neg hi]
      exact hpair i
  · dsimp only
    have hup := range_sum_update (fun i => chainSum (st.buckets i)) i0
      (chainSum C) QUEUE_BUCKETS (by rw [QUEUE_BUCKETS]; omega)
    have hmc : ((List.range QUEUE_BUCKETS).map fun i =>
        chainSum (if i = i0 then C else st.buckets i)) =
        (List.range QUEUE_BUCKETS).map fun i =>
          if i = i0 then chainSum C else chainSum (st.buckets i) := by
      apply List.map_congr_left
      intro i _
      split <;> rfl
    rw [hmc]
    dsimp only at hup
    omega

theorem queue_push_ok {st : QState} (hinv : QInv st) (uid chat : Int)
    (text : List Nat)
    (hok : ∀ r, findRing (st.buckets (hash_user uid)) uid = some r →
      r.count < r.cap) :
    (queue_push st uid chat text).1 = 0 ∧
    QInv (queue_push st uid chat text).2 ∧
    (queue_push st uid chat text).2.total_pending = st.total_pending + 1 ∧
    (queue_push st uid chat text).2.ring_size = st.ring_size ∧
    (queue_push st uid chat text).2.shutdown = st.shutdown ∧
    (queue_push st uid chat text).2.rr_bucket = st.rr_bucket ∧
    pendingFor uid (queue_push st uid chat text).2 =
      pendingFor uid st ++ [text.take 1023] ∧
    (∀ v, v ≠ uid → pendingFor v (queue_push st uid chat text).2 =
      pendingFor v st) := by
  obtain ⟨h4, hpow⟩ := cap_pos hinv.1
  cases hfind : findRing (st.buckets (hash_user uid)) uid with
  | none =>
    rw [queue_push_create_ok hfind (by omega)]
    have hnomatch := findRing_none hfind
    have hwfnew : RingWF st.ring_size (hash_user uid)
        (pushRing (new_ring uid st.ring_size) chat text) := by
      apply ringWF_pushRing
      · exact rfl
      · exact rfl
      · show 0 < round_up_pow2 st.ring_size
        omega
      · show (0 : Nat) = (0 + 0) % round_up_pow2 st.ring_size
        rw [Nat.add_zero, Nat.zero_mod]
      · show 0 < round_up_pow2 st.ring_size
        omega
      · exact hpow
    refine ⟨rfl, ?_, rfl, rfl, rfl, rfl, ?_, ?_⟩
    · apply qinv_update hinv (hash_user_lt uid)
      · intro r hr
        rcases List.mem_cons.mp hr with rfl | hr2
        · exact hwfnew
        · exact hinv.2.1 _ r hr2
      · rw [List.pairwise_cons]
        refine ⟨?_, hinv.2.2.1 _⟩
        intro a ha
        show (pushRing (new_ring uid st.ring_size) chat text).user_id ≠
          a.user_id
        intro hc
        exact hnomatch a ha (by rw [← hc]; rfl)
      · rw [chainSum]
        show 1 + chainSum (st.buckets (hash_user uid)) = _
        omega
    · rw [pendingFor, ringFor]
      dsimp only
      rw [if_pos rfl, findRing, List.find?_cons_of_pos _ (by
        show ((pushRing (new_ring uid st.ring_size) chat text).user_id ==
          uid) = true
        simp [pushRing, new_ring])]
      rw [pendingFor, ringFor, hfind]
      have hrm := ringMsgs_pushRing (new_ring uid st.ring_size) chat text
        (by show 0 < round_up_pow2 st.ring_size; omega)
        (by show (0 : Nat) = (0 + 0) % round_up_pow2 st.ring_size; simp)
        (by show 0 < round_up_pow2 st.ring_size; omega) hpow
      show ringMsgs (pushRing (new_ring uid st.ring_size) chat text) =
        [] ++ [List.take 1023 text]
      rw [hrm, ringMsgs_new]
    · intro v hv
      rw [pendingFor, pendingFor, ringFor, ringFor]
      dsimp only
      by_cases hb : hash_user v = hash_user uid
      · rw [hb, if_pos rfl, findRing, List.find?_cons_of_neg _ (by
          show ¬(((pushRing (new_ring uid st.ring_size) chat
            text).user_id : Int) == v) = true
          show ¬((uid : Int) == v) = true
          simp
          omega)]
        rfl
      · rw [if_neg hb]
  | some r =>
    have hnf := hok r hfind
    rw [queue_push_found_ok hfind hnf]
    obtain ⟨hru, pre, post, hchain, hpre⟩ := findRing_some hfind
    have hrmem : r ∈ st.buckets (hash_user uid) := by
      rw [hchain]
      simp
    obtain ⟨hhash, hcap, hhead, htail, hcpos, hcle⟩ := hinv.2.1 _ r hrmem
    have hpow2 : ∃ k, r.cap = 2 ^ k := by
      obtain ⟨k, hk⟩ := hpow
      exact ⟨k, by rw [hcap, hk]⟩
    have hpost : ∀ x ∈ post, x.user_id ≠ uid := by
      have hp := hinv.2.2.1 (hash_user uid)
      rw [hchain, List.pairwise_append, List.pairwise_cons] at hp
      intro x hx hc
      exact hp.2.1.1 x hx (by rw [hru, hc])
    have hset : setRing (st.buckets (hash_user uid)) (pushRing r chat text)
        = pre ++ pushRing r chat text :: post := by
      rw [hchain]
      exact setRing_eq (fun x hx hc => hpre x hx (hc.trans hru))
        (fun x hx hc => hpost x hx (hc.trans hru)) rfl
    refine ⟨rfl, ?_, rfl, rfl, rfl, rfl, ?_, ?_⟩
    · apply qinv_update hinv (hash_user_lt uid)
      · intro x hx
        rw [hset] at hx
        rcases List.mem_append.mp hx with hx1 | hx2
        · exact hinv.2.1 _ x
            (by rw [hchain]; exact List.mem_append_left _ hx1)
        rcases List.mem_cons.mp hx2 with rfl | hx3
        · exact ringWF_pushRing chat text hhash hcap hhead htail hnf hpow2
        · exact hinv.2.1 _ x (by
            rw [hchain]
            exact List.mem_append_right _ (List.mem_cons_of_mem _ hx3))
      · rw [hset]
        exact @pairwise_replace pre post r (pushRing r chat text)
          (by rw [← hchain]; exact hinv.2.2.1 _) rfl
      · rw [hset, hchain, chainSum_append, chainSum_append]
        show chainSum pre + ((pushRing r chat text).count + chainSum post) =
          chainSum pre + (r.count + chainSum post) + 1
        show chainSum pre + (r.count + 1 + chainSum post) =
          chainSum pre + (r.count + chainSum post) + 1
        omega
    · rw [pendingFor, pendingFor, ringFor, ringFor]
      dsimp only
      rw [if_pos rfl, hset, hfind,
        findRing_append hpre (show (pushRing r chat text).user_id = uid
          from hru)]
      show ringMsgs (pushRing r chat text) = ringMsgs r ++
        [List.take 1023 text]
      exact ringMsgs_pushRing r chat text hhead htail hnf hpow2
    · intro v hv
      rw [pendingFor, pendingFor, ringFor, ringFor]
      dsimp only
      by_cases hb : hash_user v = hash_user uid
      · rw [hb, if_pos rfl, hset, hchain,
          findRing_congr (show r.user_id = (pushRing r chat text).user_id
            from rfl) (show v ≠ r.user_id by rw [hru]; exact hv)]
      · rw [if_neg hb]

theorem chain_pop_mem {chain : List UserRing} {s : Slot} {u : Int}
    {chain2 : List UserRing} (h : chain_pop chain = some (s, u, chain2)) :
    ∃ r ∈ chain, r.user_id = u ∧ 0 < r.count := by
  induction chain generalizing s u chain2 with
  | nil => simp [chain_pop] at h
  | cons r rest ih =>
    rw [chain_pop] at h
    by_cases hc : 0 < r.count
    · rw [if_pos hc] at h
      have h1 : r.user_id = u :=
        congrArg (fun p => p.2.1) (Option.some.inj h)
      exact ⟨r, by simp, h1, hc⟩
    · rw [if_neg hc] at h
      cases hcp : chain_pop rest with
      | none => rw [hcp] at h; simp at h
      | some x =>
        obtain ⟨s3, u3, rest3⟩ := x
        rw [hcp] at h
        dsimp only at h
        have hu : u3 = u :=
          congrArg (fun p => p.2.1) (Option.some.inj h)
        obtain ⟨r4, hr4, hru4, hc4⟩ := ih hcp
        exact ⟨r4, List.mem_cons_of_mem _ hr4, hru4.trans hu, hc4⟩

theorem pop_scan_eq_some {st : QState} {i fuel : Nat}
    {s : Slot} {u : Int} {st2 : QState}
    (h : pop_scan st i fuel = some (s, u, st2)) :
    ∃ d, d < fuel ∧
      (∀ e, e < d → chain_pop (st.buckets ((st.rr_bucket + (i + e)) &&&
        QUEUE_BUCKET_MASK)) = none) ∧
      ∃ chain2, chain_pop (st.buckets ((st.rr_bucket + (i + d)) &&&
          QUEUE_BUCKET_MASK)) = some (s, u, chain2) ∧
        st2 = { st with
          buckets := fun j => if j = (st.rr_bucket + (i + d)) &&&
              QUEUE_BUCKET_MASK then chain2 else st.buckets j
          total_pending := st.total_pending - 1
          rr_bucket := (((st.rr_bucket + (i + d)) &&& QUEUE_BUCKET_MASK) + 1)
            &&& QUEUE_BUCKET_MASK } := by
  induction fuel generalizing i with
  | zero => simp [pop_scan] at h
  | succ fuel ih =>
    rw [pop_scan] at h
    cases hcp : chain_pop (st.buckets ((st.rr_bucket + i) &&&
        QUEUE_BUCKET_MASK)) with
    | some x =>
      obtain ⟨s3, u3, chain3⟩ := x
      rw [hcp] at h
      dsimp only at h
      have hs : s3 = s := congrArg (fun p => p.1) (Option.some.inj h)
      have hu : u3 = u := congrArg (fun p => p.2.1) (Option.some.inj h)
      have hst : st2 = _ :=
        (congrArg (fun p => p.2.2) (Option.some.inj h)).symm
      refine ⟨0, by omega, by omega, chain3, ?_, ?_⟩
      · rw [Nat.add_zero, hcp, hs, hu]
      · rw [Nat.add_zero]
        exact hst
    | none =>
      rw [hcp] at h
      obtain ⟨d, hd, hnone, chain2, hsome, hst⟩ := ih h
      refine ⟨d + 1, by omega, ?_, chain2, ?_, ?_⟩
      · intro e he
        cases e with
        | zero => rw [Nat.add_zero]; exact hcp
        | succ e2 =>
          rw [show i + (e2 + 1) = i + 1 + e2 by omega]
          exact hnone e2 (by omega)
      · rw [show i + (d + 1) = i + 1 + d by omega]
        exact hsome
      · rw [show i + (d + 1) = i + 1 + d by omega]
        exact hst

theorem pop_scan_progress {st : QState} {i fuel : Nat}
    (h : ∃ d, d < fuel ∧ chain_pop (st.buckets ((st.rr_bucket + (i + d)) &&&
      QUEUE_BUCKET_MASK)) ≠ none) :
    pop_scan st i fuel ≠ none := by
  induction fuel generalizing i with
  | zero =>
    obtain ⟨d, hd, -⟩ := h
    omega
  | succ fuel ih =>
    obtain ⟨d, hd, hne⟩ := h
    rw [pop_scan]
    cases hcp : chain_pop (st.buckets ((st.rr_bucket + i) &&&
        QUEUE_BUCKET_MASK)) with
    | some x =>
      obtain ⟨s3, u3, chain3⟩ := x
      simp
    | none =>
      have hd0 : d ≠ 0 := by
        intro hc
        subst hc
        rw [Nat.add_zero] at hne
        exact hne hcp
      apply ih
      refine ⟨d - 1, by omega, ?_⟩
      rw [show i + 1 + (d - 1) = i + d by omega]
      exact hne

theorem findRing_cons_ne {r : UserRing} {rest : List UserRing} {v : Int}
    (h : r.user_id ≠ v) : findRing (r :: rest) v = findRing rest v := by
  rw [findRing, findRing]
  exact List.find?_cons_of_neg rest (by simp [h])

theorem findRing_cons_eq {r : UserRing} {rest : List UserRing} {v : Int}
    (h : r.user_id = v) : findRing (r :: rest) v = some r := by
  rw [findRing]
  exact List.find?_cons_of_pos rest (by simp [h])

theorem ring_pop_any_spec {st : QState} (hinv : QInv st) {s : Slot} {u : Int}
    {st2 : QState} (h : ring_pop_any st = some (s, u, st2)) :
    QInv st2 ∧
    st2.ring_size = st.ring_size ∧
    st2.shutdown = st.shutdown ∧
    st2.total_pending = st.total_pending - 1 ∧
    0 < st.total_pending ∧
    st2.rr_bucket = (hash_user u + 1) % 64 ∧
    pendingFor u st = s.text :: pendingFor u st2 ∧
    (∀ v, v ≠ u → pendingFor v st2 = pendingFor v st) := by
  obtain ⟨d, hd, hnone, chain2, hsome, hst⟩ := pop_scan_eq_some h
  subst hst
  set idx := (st.rr_bucket + (0 + d)) &&& QUEUE_BUCKET_MASK with hidx
  have hidx64 : idx < 64 := by
    rw [hidx, QUEUE_BUCKET_MASK, and_63]
    exact Nat.mod_lt _ (by omega)
  cases hchain : st.buckets idx with
  | nil =>
    rw [hchain] at hsome
    simp [chain_pop] at hsome
  | cons r rest =>
    obtain ⟨hhash, hcap, hhead, htail, hcpos, hcle⟩ :=
      hinv.2.1 idx r (by rw [hchain]; simp)
    rw [hchain, chain_pop_cons_pos r rest hcpos] at hsome
    have hs : r.slots r.head = s :=
      congrArg (fun p => p.1) (Option.some.inj hsome)
    have hu : r.user_id = u :=
      congrArg (fun p => p.2.1) (Option.some.inj hsome)
    have hc2 := congrArg (fun p => p.2.2) (Option.some.inj hsome)
    dsimp only at hc2
    have hcappos : 0 < r.cap := by omega
    have hpow2 : ∃ k, r.cap = 2 ^ k := by
      obtain ⟨-, k, hk⟩ := cap_pos hinv.1
      exact ⟨k, by rw [hcap, hk]⟩
    obtain ⟨k, hk⟩ := hpow2
    have hpw := hinv.2.2.1 idx
    rw [hchain, List.pairwise_cons] at hpw
    have hcsold : chainSum (st.buckets idx) = r.count + chainSum rest := by
      rw [hchain]
      rfl
    have hcs2 : chainSum chain2 + 1 = chainSum (st.buckets idx) := by
      rw [hcsold, ← hc2]
      by_cases hdr : r.count - 1 = 0
      · rw [if_pos hdr]
        omega
      · rw [if_neg hdr]
        show r.count - 1 + chainSum rest + 1 = _
        omega
    have hge := range_sum_ge (fun i => chainSum (st.buckets i))
      QUEUE_BUCKETS idx (by rw [QUEUE_BUCKETS]; omega)
    dsimp only at hge
    have hsum := hinv.2.2.2
    have hWF2 : ∀ x ∈ chain2, RingWF st.ring_size idx x := by
      intro x hx
      rw [← hc2] at hx
      by_cases hdr : r.count - 1 = 0
      · rw [if_pos hdr] at hx
        exact hinv.2.1 idx x (by rw [hchain]; exact List.mem_cons_of_mem _ hx)
      · rw [if_neg hdr] at hx
        rcases List.mem_cons.mp hx with rfl | hx2
        · refine ⟨hhash, hcap, ?_, ?_, ?_, ?_⟩
          · show (r.head + 1) &&& (r.cap - 1) < r.cap
            rw [hk, and_two_pow_sub_one, ← hk]
            exact Nat.mod_lt _ hcappos
          · show r.tail = (((r.head + 1) &&& (r.cap - 1)) + (r.count - 1))
              % r.cap
            rw [hk, and_two_pow_sub_one, ← hk, Nat.mod_add_mod,
              show r.head + 1 + (r.count - 1) = r.head + r.count by omega]
            exact htail
          · show 0 < r.count - 1
            omega
          · show r.count - 1 ≤ r.cap
            omega
        · exact hinv.2.1 idx x
            (by rw [hchain]; exact List.mem_cons_of_mem _ hx2)
    have hPW2 : chain2.Pairwise fun a b => a.user_id ≠ b.user_id := by
      rw [← hc2]
      by_cases hdr : r.count - 1 = 0
      · rw [if_pos hdr]
        exact hpw.2
      · rw [if_neg hdr]
        rw [List.pairwise_cons]
        exact ⟨fun a ha => hpw.1 a ha, hpw.2⟩
    refine ⟨⟨hinv.1, ?_, ?_, ?_⟩, rfl, rfl, rfl, ?_, ?_, ?_, ?_⟩
    · intro i x hx
      dsimp only at hx
      by_cases hi : i = idx
      · subst hi
        rw [if_pos rfl] at hx
        exact hWF2 x hx
      · rw [if_neg hi] at hx
        exact hinv.2.1 i x hx
    · intro i
      dsimp only
      by_cases hi : i = idx
      · subst hi
        rw [if_pos rfl]
        exact hPW2
      · rw [if_neg hi]
        exact hinv.2.2.1 i
    · dsimp only
      have hup := range_sum_update (fun i => chainSum (st.buckets i)) idx
        (chainSum chain2) QUEUE_BUCKETS (by rw [QUEUE_BUCKETS]; omega)
      have hmc : ((List.range QUEUE_BUCKETS).map fun i =>
          chainSum (if i = idx then chain2 else st.buckets i)) =
          (List.range QUEUE_BUCKETS).map fun i =>
            if i = idx then chainSum chain2 else chainSum (st.buckets i) := by
        apply List.map_congr_left
        intro i _
        split <;> rfl
      rw [hmc]
      dsimp only at hup
      omega
    · omega
    · show (idx + 1) &&& QUEUE_BUCKET_MASK = (hash_user u + 1) % 64
      rw [← hu, hhash, QUEUE_BUCKET_MASK, and_63]
    · rw [pendingFor, pendingFor, ringFor, ringFor, ← hu, hhash]
      dsimp only
      rw [if_pos rfl, hchain, findRing,
        List.find?_cons_of_pos _ (by simp), ← hc2]
      have hmsg := ringMsgs_pop r hhead hcpos ⟨k, hk⟩
      by_cases hdr : r.count - 1 = 0
      · rw [if_pos hdr]
        have hfr : findRing rest r.user_id = none := by
          rw [findRing, List.find?_eq_none]
          intro x hx
          simp
          exact fun hc => hpw.1 x hx hc.symm
        rw [hfr]
        show ringMsgs r = s.text :: []
        rw [hmsg, hs]
        have : ringMsgs { r with head := (r.head + 1) &&& (r.cap - 1),
                                 count := r.count - 1 } = [] := by
          rw [ringMsgs]
          dsimp only
          rw [hdr]
          rfl
        rw [this]
      · rw [if_neg hdr]
        rw [findRing, List.find?_cons_of_pos _ (by simp)]
        show ringMsgs r = s.text :: ringMsgs _
        rw [hmsg, hs]
    · intro v hv
      rw [pendingFor, pendingFor, ringFor, ringFor]
      dsimp only
      by_cases hb : hash_user v = idx
      · rw [hb, if_pos rfl, ← hc2, hchain]
        have hru_ne : r.user_id ≠ v := by
          rw [hu]
          exact fun hc => hv hc.symm
        by_cases hdr : r.count - 1 = 0
        · rw [if_pos hdr, findRing_cons_ne hru_ne]
        · rw [if_neg hdr]
          have h2 : ({ r with head := (r.head + 1) &&& (r.cap - 1), count := r.count - 1 } : UserRing).user_id ≠ v :=
            hru_ne
          rw [findRing_cons_ne h2, findRing_cons_ne hru_ne]
      · rw [if_neg hb]

theorem ring_pop_any_some {st : QState} (hinv : QInv st)
    (hp : 0 < st.total_pending) : ring_pop_any st ≠ none := by
  have hsum := hinv.2.2.2
  have hex : ∃ i, i < QUEUE_BUCKETS ∧ chainSum (st.buckets i) ≠ 0 := by
    by_contra hc
    push_neg at hc
    have hz : ((List.range QUEUE_BUCKETS).map fun i =>
        chainSum (st.buckets i)).sum = 0 := by
      apply List.sum_eq_zero
      intro x hx
      rw [List.mem_map] at hx
      obtain ⟨i, hi, rfl⟩ := hx
      rw [List.mem_range] at hi
      exact hc i hi
    omega
  obtain ⟨i0, hi0, hne⟩ := hex
  rw [QUEUE_BUCKETS] at hi0
  rw [ring_pop_any]
  apply pop_scan_progress
  refine ⟨(i0 + 64 - st.rr_bucket % 64) % 64, ?_, ?_⟩
  · rw [QUEUE_BUCKETS]
    omega
  · have hbidx : (st.rr_bucket + (0 + (i0 + 64 - st.rr_bucket % 64) % 64))
        &&& QUEUE_BUCKET_MASK = i0 := by
      rw [QUEUE_BUCKET_MASK, and_63]
      omega
    rw [hbidx]
    cases hchain : st.buckets i0 with
    | nil =>
      rw [hchain] at hne
      simp [chainSum] at hne
    | cons r rest =>
      have hpos : 0 < r.count :=
        (hinv.2.1 i0 r (by rw [hchain]; simp)).2.2.2.2.1
      rw [chain_pop_cons_pos r rest hpos]
      simp

theorem queue_pop_msg_ring {st : QState} {s : Slot} {u : Int} {st2 : QState}
    (h : queue_pop st = (.msg s u, st2)) :
    ring_pop_any st = some (s, u, st2) := by
  rw [queue_pop] at h
  by_cases h1 : st.total_pending = 0 ∧ st.shutdown = false
  · rw [if_pos h1] at h
    exact absurd (congrArg Prod.fst h) (by simp)
  · rw [if_neg h1] at h
    by_cases h2 : st.shutdown = true ∧ st.total_pending = 0
    · rw [if_pos h2] at h
      exact absurd (congrArg Prod.fst h) (by simp)
    · rw [if_neg h2] at h
      cases hra : ring_pop_any st with
      | none =>
        rw [hra] at h
        exact absurd (congrArg Prod.fst h) (by simp)
      | some x =>
        obtain ⟨s3, u3, st3⟩ := x
        rw [hra] at h
        dsimp only at h
        have hmsg := congrArg Prod.fst h
        dsimp only at hmsg
        injection hmsg with hs hu
        have hst : st3 = st2 := congrArg Prod.snd h
        subst hs
        subst hu
        subst hst
        rfl

theorem queue_pop_not_msg {st : QState} {res : PopResult} {st2 : QState}
    (h : queue_pop st = (res, st2)) (hres : ∀ s u, res ≠ .msg s u) :
    st2 = st := by
  rw [queue_pop] at h
  by_cases h1 : st.total_pending = 0 ∧ st.shutdown = false
  · rw [if_pos h1] at h
    exact (congrArg Prod.snd h).symm
  · rw [if_neg h1] at h
    by_cases h2 : st.shutdown = true ∧ st.total_pending = 0
    · rw [if_pos h2] at h
      exact (congrArg Prod.snd h).symm
    · rw [if_neg h2] at h
      cases hra : ring_pop_any st with
      | none =>
        rw [hra] at h
        exact (congrArg Prod.snd h).symm
      | some x =>
        obtain ⟨s3, u3, st3⟩ := x
        rw [hra] at h
        dsimp only at h
        exact absurd (congrArg Prod.fst h).symm (hres s3 u3)

theorem stepOp_inv {p : QState × List QEvent} (h1 : QInv p.1)
    (h2 : ∀ u, pushedFor u p.2 = poppedFor u p.2 ++ pendingFor u p.1)
    (op : QOp) :
    QInv (stepOp p op).1 ∧
    ∀ u, pushedFor u (stepOp p op).2 =
      poppedFor u (stepOp p op).2 ++ pendingFor u (stepOp p op).1 := by
  cases op with
  | push uid chat text =>
    rw [stepOp]
    dsimp only
    by_cases hfull : ∃ r, findRing (p.1.buckets (hash_user uid)) uid = some r
        ∧ r.cap ≤ r.count
    · obtain ⟨r, hfind, hge⟩ := hfull
      rw [queue_push_found_full hfind hge]
      dsimp only
      rw [if_neg (by norm_num), List.append_nil]
      exact ⟨h1, h2⟩
    · have hok : ∀ r, findRing (p.1.buckets (hash_user uid)) uid = some r →
          r.count < r.cap :=
        fun r hr => Nat.lt_of_not_le fun hle => hfull ⟨r, hr, hle⟩
      obtain ⟨hrc, hqi, htp, hrs2, hsd, hrr, hpada, hpado⟩ :=
        queue_push_ok h1 uid chat text hok
      rw [hrc, if_pos rfl]
      refine ⟨hqi, ?_⟩
      intro w
      by_cases hw : w = uid
      · subst hw
        rw [pushedFor_append_pushed, poppedFor_append_pushed, hpada, h2 w,
          List.append_assoc]
      · rw [pushedFor_append_other w uid _ _ (fun hc => hw hc.symm),
          poppedFor_append_pushed, hpado w hw, h2 w]
  | pop =>
    rw [stepOp]
    cases hq : queue_pop p.1 with
    | mk res st2 =>
      cases res with
      | msg s u =>
        dsimp only
        have hra := queue_pop_msg_ring hq
        obtain ⟨hqi, hrs2, hsd, htp, hpos, hrr, hpend, hpendo⟩ :=
          ring_pop_any_spec h1 hra
        refine ⟨hqi, ?_⟩
        intro w
        by_cases hw : w = u
        · subst hw
          rw [pushedFor_append_popped, poppedFor_append_popped, h2 w, hpend]
          rw [List.append_assoc]
          rfl
        · rw [pushedFor_append_popped,
            poppedFor_append_other w u _ _ (fun hc => hw hc.symm),
            hpendo w hw, h2 w]
      | sentinel =>
        dsimp only
        have hst := queue_pop_not_msg hq (by intro s u hc; cases hc)
        rw [hst]
        exact ⟨h1, h2⟩
      | blocked =>
        dsimp only
        have hst := queue_pop_not_msg hq (by intro s u hc; cases hc)
        rw [hst]
        exact ⟨h1, h2⟩
  | shutdown =>
    rw [stepOp]
    exact ⟨h1, h2⟩

theorem foldl_inv (ops : List QOp) :
    ∀ p, QInv p.1 →
      (∀ u, pushedFor u p.2 = poppedFor u p.2 ++ pendingFor u p.1) →
      QInv (ops.foldl stepOp p).1 ∧
      ∀ u, pushedFor u (ops.foldl stepOp p).2 =
        poppedFor u (ops.foldl stepOp p).2 ++
        pendingFor u (ops.foldl stepOp p).1 := by
  induction ops with
  | nil => exact fun p h1 h2 => ⟨h1, h2⟩
  | cons op rest ih =>
    intro p h1 h2
    rw [List.foldl_cons]
    obtain ⟨h1a, h2a⟩ := stepOp_inv h1 h2 op
    exact ih _ h1a h2a

theorem qinv_init (rs : Int) (hrs : rs < 2 ^ 31) : QInv (queue_init rs) := by
  refine ⟨?_, ?_, ?_, ?_⟩
  · show (if 0 < rs then rs.toNat else 30) < 2 ^ 32
    split <;> omega
  · intro i r hr
    simp [queue_init] at hr
  · intro i
    exact List.Pairwise.nil
  · show 0 = ((List.range QUEUE_BUCKETS).map fun i => chainSum []).sum
    simp [chainSum]

theorem runOps_inv (rs : Int) (hrs : rs < 2 ^ 31) (ops : List QOp) :
    QInv (runOps rs ops).1 ∧
    ∀ u, pushedFor u (runOps rs ops).2 =
      poppedFor u (runOps rs ops).2 ++ pendingFor u (runOps rs ops).1 := by
  rw [runOps]
  exact foldl_inv ops _ (qinv_init rs hrs) (fun u => rfl)

theorem round_up_pow2_pos (v : Nat) : 0 < round_up_pow2 v :=
  Nat.succ_pos _

theorem stepOp_ring_size (p : QState × List QEvent) (op : QOp) :
    (stepOp p op).1.ring_size = p.1.ring_size := by
  cases op with
  | push uid chat text =>
    rw [stepOp]
    dsimp only
    cases hf : findRing (p.1.buckets (hash_user uid)) uid with
    | some r =>
      by_cases hc : r.cap ≤ r.count
      · rw [queue_push_found_full hf hc]
      · rw [queue_push_found_ok hf (by omega)]
    | none =>
      rw [queue_push_create_ok hf (round_up_pow2_pos _)]
  | pop =>
    rw [stepOp]
    cases hq : queue_pop p.1 with
    | mk res st2 =>
      cases res with
      | msg s u =>
        dsimp only
        obtain ⟨d, -, -, c2, -, hst⟩ :=
          pop_scan_eq_some (queue_pop_msg_ring hq)
        rw [hst]
      | sentinel =>
        dsimp only
        rw [queue_pop_not_msg hq (by intro s u hc; cases hc)]
      | blocked =>
        dsimp only
        rw [queue_pop_not_msg hq (by intro s u hc; cases hc)]
  | shutdown => rfl

theorem runOps_ring_size (rs : Int) (ops : List QOp) :
    (runOps rs ops).1.ring_size = (queue_init rs).ring_size := by
  rw [runOps]
  suffices h : ∀ p : QState × List QEvent,
      (ops.foldl stepOp p).1.ring_size = p.1.ring_size from
    h (queue_init rs, [])
  induction ops with
  | nil => intro p; rfl
  | cons op rest ih =>
    intro p
    rw [List.foldl_cons, ih (stepOp p op), stepOp_ring_size]

theorem queue_push_shutdown (st : QState) (uid chat : Int) (t : List Nat) :
    queue_push (queue_shutdown st) uid chat t =
      ((queue_push st uid chat t).1,
        queue_shutdown (queue_push st uid chat t).2) := by
  simp only [queue_push, queue_shutdown, ring_get_or_create]
  cases hf : findRing (st.buckets (hash_user uid)) uid with
  | some r =>
    dsimp only
    by_cases hc : r.cap ≤ r.count
    · simp only [if_pos hc]
    · simp only [if_neg hc]
  | none =>
    dsimp only
    by_cases hc : (new_ring uid st.ring_size).cap ≤
        (new_ring uid st.ring_size).count
    · simp only [if_pos hc]
    · simp only [if_neg hc]

theorem queue_shutdown_idem (st : QState) :
    queue_shutdown (queue_shutdown st) = queue_shutdown st := rfl

/-- C1: per-sender FIFO is strict — for every `int`-ranged ring size, every
operation sequence and every sender, the texts delivered by pops for that
sender form a prefix of the texts successfully pushed for them (after the
1023-byte truncation), in push order: the pushed sequence is the popped
sequence followed by what is still queued. -/
theorem queue_per_sender_fifo (rs : Int) (hrs : rs < 2 ^ 31)
    (ops : List QOp) (u : Int) :
    ∃ rest, pushedFor u (runOps rs ops).2 =
      poppedFor u (runOps rs ops).2 ++ rest :=
  ⟨pendingFor u (runOps rs ops).1, (runOps_inv rs hrs ops).2 u⟩

/-- Witness for `queue_per_sender_fifo` at a concrete run. -/
theorem queue_per_sender_fifo_witness :
    (30 : Int) < 2 ^ 31 ∧
    ∃ rest, pushedFor 7 (runOps 30 [QOp.push 7 1 [104, 105], QOp.pop]).2 =
      poppedFor 7 (runOps 30 [QOp.push 7 1 [104, 105], QOp.pop]).2 ++ rest :=
  ⟨by decide, queue_per_sender_fifo 30 (by decide) _ 7⟩

/-- C4: shutdown semantics — after `queue_shutdown`, `queue_pop` returns
the sentinel iff nothing is pending, a non-empty queue still delivers a
message, `queue_push` is oblivious to the flag, and a second
`queue_shutdown` changes nothing. -/
theorem queue_shutdown_semantics (rs : Int) (hrs : rs < 2 ^ 31)
    (ops : List QOp) :
    ((queue_pop (queue_shutdown (runOps rs ops).1)).1 = PopResult.sentinel ↔
      (runOps rs ops).1.total_pending = 0) ∧
    ((runOps rs ops).1.total_pending ≠ 0 →
      ∃ s u st2, queue_pop (queue_shutdown (runOps rs ops).1) =
        (PopResult.msg s u, st2)) ∧
    (∀ uid chat text,
      queue_push (queue_shutdown (runOps rs ops).1) uid chat text =
        ((queue_push (runOps rs ops).1 uid chat text).1,
          queue_shutdown (queue_push (runOps rs ops).1 uid chat text).2)) ∧
    queue_shutdown (queue_shutdown (runOps rs ops).1) =
      queue_shutdown (runOps rs ops).1 := by
  obtain ⟨hq, -⟩ := runOps_inv rs hrs ops
  have hmsg : (runOps rs ops).1.total_pending ≠ 0 →
      ∃ s u st2, queue_pop (queue_shutdown (runOps rs ops).1) =
        (PopResult.msg s u, st2) := by
    intro hp
    have hq2 : QInv (queue_shutdown (runOps rs ops).1) := hq
    have hne := ring_pop_any_some hq2
      (show 0 < (queue_shutdown (runOps rs ops).1).total_pending from
        show 0 < (runOps rs ops).1.total_pending by omega)
    obtain ⟨x, hx⟩ := Option.ne_none_iff_exists'.mp hne
    obtain ⟨s, u, st2⟩ := x
    refine ⟨s, u, st2, ?_⟩
    rw [queue_pop, if_neg (fun hc => hp hc.1), if_neg (fun hc => hp hc.2),
      hx]
  refine ⟨?_, hmsg,
    fun uid chat text => queue_push_shutdown _ uid chat text,
    queue_shutdown_idem _⟩
  by_cases hp : (runOps rs ops).1.total_pending = 0
  · have hpop : queue_pop (queue_shutdown (runOps rs ops).1) =
        (PopResult.sentinel, queue_shutdown (runOps rs ops).1) := by
      rw [queue_pop,
        if_neg (show ¬((queue_shutdown (runOps rs ops).1).total_pending = 0 ∧
          (queue_shutdown (runOps rs ops).1).shutdown = false) from
          fun hc => by simpa [queue_shutdown] using hc.2),
        if_pos ⟨rfl, hp⟩]
    rw [hpop]
    simp [hp]
  · obtain ⟨s, u, st2, hpop⟩ := hmsg hp
    rw [hpop]
    simp [hp]

/-- Witness for `queue_shutdown_semantics` on the empty run. -/
theorem queue_shutdown_semantics_witness :
    (30 : Int) < 2 ^ 31 ∧
    (((queue_pop (queue_shutdown (runOps 30 []).1)).1 = PopResult.sentinel ↔
      (runOps 30 []).1.total_pending = 0) ∧
    ((runOps 30 []).1.total_pending ≠ 0 →
      ∃ s u st2, queue_pop (queue_shutdown (runOps 30 []).1) =
        (PopResult.msg s u, st2)) ∧
    (∀ uid chat text,
      queue_push (queue_shutdown (runOps 30 []).1) uid chat text =
        ((queue_push (runOps 30 []).1 uid chat text).1,
          queue_shutdown (queue_push (runOps 30 []).1 uid chat text).2)) ∧
    queue_shutdown (queue_shutdown (runOps 30 []).1) =
      queue_shutdown (runOps 30 []).1) :=
  ⟨by decide, queue_shutdown_semantics 30 (by decide) []⟩

/-- C3: round-robin fairness — if a pop on a reachable state delivers user
`u` while another user `v`, stored in a different bucket, still has a ring,
the immediately following pop does not deliver `u` again: the cursor moved
past `u`'s bucket, which is now the last bucket the next scan would
visit. -/
theorem queue_pop_round_robin (rs : Int) (hrs : rs < 2 ^ 31)
    (ops : List QOp) (s : Slot) (u : Int) (st1 : QState)
    (hpop : queue_pop (runOps rs ops).1 = (PopResult.msg s u, st1))
    (v : Int) (hv : (ringFor (runOps rs ops).1 v).isSome = true)
    (hbucket : hash_user v ≠ hash_user u)
    (s2 : Slot) (u2 : Int) (st2 : QState)
    (hpop2 : queue_pop st1 = (PopResult.msg s2 u2, st2)) :
    u2 ≠ u := by
  obtain ⟨hq, -⟩ := runOps_inv rs hrs ops
  have hra := queue_pop_msg_ring hpop
  obtain ⟨d, hd, hnone, chain2, hsome, hst⟩ := pop_scan_eq_some hra
  obtain ⟨r, hrmem, hruid, hrcnt⟩ := chain_pop_mem hsome
  have hhashu : hash_user u =
      (((runOps rs ops).1.rr_bucket + (0 + d)) &&& QUEUE_BUCKET_MASK) := by
    rw [← hruid]
    exact (hq.2.1 _ r hrmem).1
  rw [ringFor] at hv
  obtain ⟨rv, hrv⟩ := Option.isSome_iff_exists.mp hv
  rw [findRing] at hrv
  have hrvmem := List.mem_of_find?_eq_some hrv
  have hrvcnt : 0 < rv.count := (hq.2.1 _ rv hrvmem).2.2.2.2.1
  have hvne : hash_user v ≠
      (((runOps rs ops).1.rr_bucket + (0 + d)) &&& QUEUE_BUCKET_MASK) := by
    rw [← hhashu]
    exact hbucket
  have hst1b : st1.buckets (hash_user v) =
      (runOps rs ops).1.buckets (hash_user v) := by
    rw [hst]
    dsimp only
    rw [if_neg hvne]
  have hst1rr : st1.rr_bucket =
      ((((runOps rs ops).1.rr_bucket + (0 + d)) &&& QUEUE_BUCKET_MASK) + 1)
        &&& QUEUE_BUCKET_MASK := by
    rw [hst]
  have hq1 : QInv st1 := (ring_pop_any_spec hq hra).1
  have hra2 := queue_pop_msg_ring hpop2
  obtain ⟨d2, hd2, hnone2, chainB, hsomeB, -⟩ := pop_scan_eq_some hra2
  obtain ⟨rB, hrBmem, hrBuid, -⟩ := chain_pop_mem hsomeB
  have hhashu2 : hash_user u2 =
      ((st1.rr_bucket + (0 + d2)) &&& QUEUE_BUCKET_MASK) := by
    rw [← hrBuid]
    exact (hq1.2.1 _ rB hrBmem).1
  intro hceq
  rw [hceq] at hhashu2
  -- translate the masks to mod 64 and pin the scan distances
  simp only [QUEUE_BUCKET_MASK, and_63] at hhashu hhashu2 hst1rr hvne
  rw [QUEUE_BUCKETS] at hd2
  have hu64 := hash_user_lt u
  have hv64 := hash_user_lt v
  have hd263 : d2 = 63 := by omega
  -- position of v's bucket in the second scan comes strictly earlier
  have hev : (hash_user v + 64 - st1.rr_bucket % 64) % 64 < 63 := by omega
  have hbv : (st1.rr_bucket +
      (0 + (hash_user v + 64 - st1.rr_bucket % 64) % 64)) &&&
      QUEUE_BUCKET_MASK = hash_user v := by
    rw [QUEUE_BUCKET_MASK, and_63]
    omega
  have hvnone := hnone2 ((hash_user v + 64 - st1.rr_bucket % 64) % 64)
    (by omega)
  rw [hbv, hst1b] at hvnone
  cases hchv : (runOps rs ops).1.buckets (hash_user v) with
  | nil =>
    rw [hchv] at hrvmem
    cases hrvmem
  | cons rh rt =>
    have hpos : 0 < rh.count :=
      (hq.2.1 _ rh (by rw [hchv]; simp)).2.2.2.2.1
    rw [hchv, chain_pop_cons_pos rh rt hpos] at hvnone
    cases hvnone

/-- Witness for `queue_pop_round_robin`: users 1 (bucket 44) and 2
(bucket 39) each push once; the first pop delivers user 2, the second
user 1. -/
theorem queue_pop_round_robin_witness :
    ((4 : Int) < 2 ^ 31 ∧
      queue_pop (runOps 4 [QOp.push 1 5 [65], QOp.push 2 6 [66]]).1 =
        (PopResult.msg ⟨6, [66]⟩ 2,
          (queue_pop (runOps 4 [QOp.push 1 5 [65],
            QOp.push 2 6 [66]]).1).2) ∧
      (ringFor (runOps 4 [QOp.push 1 5 [65], QOp.push 2 6 [66]]).1 1).isSome
        = true ∧
      hash_user 1 ≠ hash_user 2 ∧
      queue_pop (queue_pop (runOps 4 [QOp.push 1 5 [65],
          QOp.push 2 6 [66]]).1).2 =
        (PopResult.msg ⟨5, [65]⟩ 1,
          (queue_pop (queue_pop (runOps 4 [QOp.push 1 5 [65],
            QOp.push 2 6 [66]]).1).2).2)) ∧
    (1 : Int) ≠ 2 :=
  ⟨⟨by decide, rfl, rfl, by decide, rfl⟩,
    queue_pop_round_robin 4 (by decide) [QOp.push 1 5 [65], QOp.push 2 6
      [66]] ⟨6, [66]⟩ 2 _ rfl 1 rfl (by decide) ⟨5, [65]⟩ 1 _ rfl⟩

/-- C2 (amended): for every positive `int` ring size, `round_up_pow2`
yields the least power of two that is at least `max ring_size 4` — with no
256 maximum — every ring ever stored carries exactly that capacity, a push
into a non-full ring succeeds and bumps `total_pending`, and a push into a
ring holding exactly `cap` messages fails and leaves the whole queue state
(hence every queued message and `total_pending`) unchanged. -/
theorem queue_ring_capacity (rs : Int) (h1 : 0 < rs) (h2 : rs < 2 ^ 31)
    (ops : List QOp) (uid chat : Int) (text : List Nat) :
    (∃ k, round_up_pow2 rs.toNat = 2 ^ k) ∧
    max rs.toNat 4 ≤ round_up_pow2 rs.toNat ∧
    (∀ k, max rs.toNat 4 ≤ 2 ^ k → round_up_pow2 rs.toNat ≤ 2 ^ k) ∧
    (∀ i r, r ∈ (runOps rs ops).1.buckets i →
      r.cap = round_up_pow2 rs.toNat) ∧
    (∀ r, ringFor (runOps rs ops).1 uid = some r →
      (r.count < r.cap →
        (queue_push (runOps rs ops).1 uid chat text).1 = 0 ∧
        (queue_push (runOps rs ops).1 uid chat text).2.total_pending =
          (runOps rs ops).1.total_pending + 1) ∧
      (r.count = r.cap →
        queue_push (runOps rs ops).1 uid chat text =
          (-1, (runOps rs ops).1))) := by
  have hrsn : rs.toNat < 2 ^ 32 := by omega
  obtain ⟨hp1, hp2, hp3⟩ := round_up_pow2_spec rs.toNat hrsn
  obtain ⟨hq, -⟩ := runOps_inv rs h2 ops
  have hring : (runOps rs ops).1.ring_size = rs.toNat := by
    rw [runOps_ring_size]
    show (if 0 < rs then rs.toNat else 30) = rs.toNat
    rw [if_pos h1]
  refine ⟨hp1, hp2, hp3, ?_, ?_⟩
  · intro i r hr
    have := (hq.2.1 i r hr).2.1
    rw [← hring]
    exact this
  · intro r hfind
    rw [ringFor] at hfind
    constructor
    · intro hlt
      obtain ⟨hrc, -, htp, -⟩ := queue_push_ok hq uid chat text
        (fun r2 hr2 => by
          have heq := Option.some.inj (hfind.symm.trans hr2)
          rw [← heq]
          exact hlt)
      exact ⟨hrc, htp⟩
    · intro heq
      exact queue_push_found_full hfind (by omega) chat text

/-- Witness for `queue_ring_capacity` at ring size 5 after one push. -/
theorem queue_ring_capacity_witness :
    ((0 : Int) < 5 ∧ (5 : Int) < 2 ^ 31) ∧
    ((∃ k, round_up_pow2 (5 : Int).toNat = 2 ^ k) ∧
    max (5 : Int).toNat 4 ≤ round_up_pow2 (5 : Int).toNat ∧
    (∀ k, max (5 : Int).toNat 4 ≤ 2 ^ k →
      round_up_pow2 (5 : Int).toNat ≤ 2 ^ k) ∧
    (∀ i r, r ∈ (runOps 5 [QOp.push 9 1 [65]]).1.buckets i →
      r.cap = round_up_pow2 (5 : Int).toNat) ∧
    (∀ r, ringFor (runOps 5 [QOp.push 9 1 [65]]).1 9 = some r →
      (r.count < r.cap →
        (queue_push (runOps 5 [QOp.push 9 1 [65]]).1 9 2 [66]).1 = 0 ∧
        (queue_push (runOps 5 [QOp.push 9 1 [65]]).1 9 2
          [66]).2.total_pending =
          (runOps 5 [QOp.push 9 1 [65]]).1.total_pending + 1) ∧
      (r.count = r.cap →
        queue_push (runOps 5 [QOp.push 9 1 [65]]).1 9 2 [66] =
          (-1, (runOps 5 [QOp.push 9 1 [65]]).1)))) :=
  ⟨⟨by decide, by decide⟩,
    queue_ring_capacity 5 (by decide) (by decide) [QOp.push 9 1 [65]] 9 2
      [66]⟩

/-- C2 as stated is false: `queue_init 257` has no 256 maximum — the first
ring created afterwards gets capacity 512. -/
theorem queue_capacity_exceeds_256 :
    ((ringFor (runOps 257 [QOp.push 1 1 [65]]).1 1).map fun r => r.cap) =
      some 512 := by
  decide

end Queue

end TgBot







